import Mathlib

set_option maxRecDepth 100000

/-!
# merkle-tree-api: shallow embedding and verification

This file embeds the core tree engines of the `merkle-tree-api` repository
(`src/merkle_tree.rs`, `src/lmdb_tree.rs`, `src/sparse_merkle_tree.rs`,
`src/optimized_sparse_tree.rs`, `src/storage.rs`) in Lean and proves or
refutes the frozen specification claims about them.

Modelling conventions:

* Byte strings are `List Nat` with every element `< 256` (`IsBytes`).
* Rust `String`s (hex-encoded siblings, storage keys) are `List Char`.
* The `sha3` crate's Keccak-256 is implemented concretely (`keccak`), and
  checked against the standard test vectors.  Generic lemmas are proved over
  an arbitrary hash function `H : List Nat → List Nat` and instantiated at
  `keccak` in the claim theorems.
* LMDB is an external library; `storage.rs` is embedded as a state structure
  whose operations follow the spec's description of the node store (§4.2).
  LMDB cursors iterate entries in byte-lexicographic key order, which is
  modelled explicitly for the `cache` database (textual keys `level_<i>`).
-/

/-! ## Bytes -/

/-- A byte string: every element is an actual byte. -/
def IsBytes (l : List Nat) : Prop := ∀ b ∈ l, b < 256

instance (l : List Nat) : Decidable (IsBytes l) := by
  unfold IsBytes; infer_instance

/-! ## Keccak-256 (the `sha3` crate dependency)

A direct implementation of Keccak-256 (rate 1088, capacity 512, the legacy
`0x01` padding used by `Keccak256`, not the SHA-3 `0x06` padding).  The state
is a flat structure of 25 64-bit lanes, lane `i` holding `A[x, y]` with
`i = x + 5 * y`. -/

/-- Rotate a 64-bit lane left by `n` (0 ≤ n < 64). -/
def rotl64 (x n : Nat) : Nat :=
  (((x <<< n) % (2 ^ 64)) ||| (x >>> (64 - n)))

/-- Bitwise complement of a 64-bit lane. -/
def not64 (x : Nat) : Nat := x ^^^ (2 ^ 64 - 1)

/-- The 5 × 5 Keccak lane state, flattened (`a<i>` is `A[i % 5, i / 5]`). -/
structure KeccakState where
  a0 : Nat
  a1 : Nat
  a2 : Nat
  a3 : Nat
  a4 : Nat
  a5 : Nat
  a6 : Nat
  a7 : Nat
  a8 : Nat
  a9 : Nat
  a10 : Nat
  a11 : Nat
  a12 : Nat
  a13 : Nat
  a14 : Nat
  a15 : Nat
  a16 : Nat
  a17 : Nat
  a18 : Nat
  a19 : Nat
  a20 : Nat
  a21 : Nat
  a22 : Nat
  a23 : Nat
  a24 : Nat

/-- The all-zero initial sponge state. -/
def initKeccakState : KeccakState :=
  ⟨0, 0, 0, 0, 0, 0, 0, 0, 0, 0, 0, 0, 0, 0, 0, 0, 0, 0, 0, 0, 0, 0, 0, 0, 0⟩

/-- One Keccak-f[1600] round: θ, ρ, π, χ, ι with round constant `rc`.
The ρ/π wiring and rotation offsets are the standard tables. -/
def keccakRound (rc : Nat) (s : KeccakState) : KeccakState :=
  let c0 := s.a0 ^^^ s.a5 ^^^ s.a10 ^^^ s.a15 ^^^ s.a20
  let c1 := s.a1 ^^^ s.a6 ^^^ s.a11 ^^^ s.a16 ^^^ s.a21
  let c2 := s.a2 ^^^ s.a7 ^^^ s.a12 ^^^ s.a17 ^^^ s.a22
  let c3 := s.a3 ^^^ s.a8 ^^^ s.a13 ^^^ s.a18 ^^^ s.a23
  let c4 := s.a4 ^^^ s.a9 ^^^ s.a14 ^^^ s.a19 ^^^ s.a24
  let d0 := c4 ^^^ rotl64 c1 1
  let d1 := c0 ^^^ rotl64 c2 1
  let d2 := c1 ^^^ rotl64 c3 1
  let d3 := c2 ^^^ rotl64 c4 1
  let d4 := c3 ^^^ rotl64 c0 1
  let t0 := s.a0 ^^^ d0
  let t1 := s.a1 ^^^ d1
  let t2 := s.a2 ^^^ d2
  let t3 := s.a3 ^^^ d3
  let t4 := s.a4 ^^^ d4
  let t5 := s.a5 ^^^ d0
  let t6 := s.a6 ^^^ d1
  let t7 := s.a7 ^^^ d2
  let t8 := s.a8 ^^^ d3
  let t9 := s.a9 ^^^ d4
  let t10 := s.a10 ^^^ d0
  let t11 := s.a11 ^^^ d1
  let t12 := s.a12 ^^^ d2
  let t13 := s.a13 ^^^ d3
  let t14 := s.a14 ^^^ d4
  let t15 := s.a15 ^^^ d0
  let t16 := s.a16 ^^^ d1
  let t17 := s.a17 ^^^ d2
  let t18 := s.a18 ^^^ d3
  let t19 := s.a19 ^^^ d4
  let t20 := s.a20 ^^^ d0
  let t21 := s.a21 ^^^ d1
  let t22 := s.a22 ^^^ d2
  let t23 := s.a23 ^^^ d3
  let t24 := s.a24 ^^^ d4
  let b0 := t0
  let b10 := rotl64 t1 1
  let b7 := rotl64 t10 3
  let b11 := rotl64 t7 6
  let b17 := rotl64 t11 10
  let b18 := rotl64 t17 15
  let b3 := rotl64 t18 21
  let b5 := rotl64 t3 28
  let b16 := rotl64 t5 36
  let b8 := rotl64 t16 45
  let b21 := rotl64 t8 55
  let b24 := rotl64 t21 2
  let b4 := rotl64 t24 14
  let b15 := rotl64 t4 27
  let b23 := rotl64 t15 41
  let b19 := rotl64 t23 56
  let b13 := rotl64 t19 8
  let b12 := rotl64 t13 25
  let b2 := rotl64 t12 43
  let b20 := rotl64 t2 62
  let b14 := rotl64 t20 18
  let b22 := rotl64 t14 39
  let b9 := rotl64 t22 61
  let b6 := rotl64 t9 20
  let b1 := rotl64 t6 44
  { a0 := (b0 ^^^ (not64 b1 &&& b2)) ^^^ rc
    a1 := b1 ^^^ (not64 b2 &&& b3)
    a2 := b2 ^^^ (not64 b3 &&& b4)
    a3 := b3 ^^^ (not64 b4 &&& b0)
    a4 := b4 ^^^ (not64 b0 &&& b1)
    a5 := b5 ^^^ (not64 b6 &&& b7)
    a6 := b6 ^^^ (not64 b7 &&& b8)
    a7 := b7 ^^^ (not64 b8 &&& b9)
    a8 := b8 ^^^ (not64 b9 &&& b5)
    a9 := b9 ^^^ (not64 b5 &&& b6)
    a10 := b10 ^^^ (not64 b11 &&& b12)
    a11 := b11 ^^^ (not64 b12 &&& b13)
    a12 := b12 ^^^ (not64 b13 &&& b14)
    a13 := b13 ^^^ (not64 b14 &&& b10)
    a14 := b14 ^^^ (not64 b10 &&& b11)
    a15 := b15 ^^^ (not64 b16 &&& b17)
    a16 := b16 ^^^ (not64 b17 &&& b18)
    a17 := b17 ^^^ (not64 b18 &&& b19)
    a18 := b18 ^^^ (not64 b19 &&& b15)
    a19 := b19 ^^^ (not64 b15 &&& b16)
    a20 := b20 ^^^ (not64 b21 &&& b22)
    a21 := b21 ^^^ (not64 b22 &&& b23)
    a22 := b22 ^^^ (not64 b23 &&& b24)
    a23 := b23 ^^^ (not64 b24 &&& b20)
    a24 := b24 ^^^ (not64 b20 &&& b21) }

/-- The 24 round constants of Keccak-f[1600]. -/
def keccakRC : List Nat :=
  [0x0000000000000001, 0x0000000000008082, 0x800000000000808a, 0x8000000080008000,
   0x000000000000808b, 0x0000000080000001, 0x8000000080008081, 0x8000000000008009,
   0x000000000000008a, 0x0000000000000088, 0x0000000080008009, 0x000000008000000a,
   0x000000008000808b, 0x800000000000008b, 0x8000000000008089, 0x8000000000008003,
   0x8000000000008002, 0x8000000000000080, 0x000000000000800a, 0x800000008000000a,
   0x8000000080008081, 0x8000000000008080, 0x0000000080000001, 0x8000000080008008]

/-- The full Keccak-f[1600] permutation (24 rounds). -/
def keccakF (s : KeccakState) : KeccakState :=
  keccakRC.foldl (fun st rc => keccakRound rc st) s

/-- Read the 64-bit little-endian lane starting at byte `8 * i` of a block. -/
def laneAt (block : List Nat) (i : Nat) : Nat :=
  ((block.drop (8 * i)).take 8).foldr (fun b acc => acc * 256 + b) 0

/-- Absorb one 136-byte block: XOR it into the first 17 lanes, then permute. -/
def absorbBlock (s : KeccakState) (block : List Nat) : KeccakState :=
  keccakF
    { s with
      a0 := s.a0 ^^^ laneAt block 0
      a1 := s.a1 ^^^ laneAt block 1
      a2 := s.a2 ^^^ laneAt block 2
      a3 := s.a3 ^^^ laneAt block 3
      a4 := s.a4 ^^^ laneAt block 4
      a5 := s.a5 ^^^ laneAt block 5
      a6 := s.a6 ^^^ laneAt block 6
      a7 := s.a7 ^^^ laneAt block 7
      a8 := s.a8 ^^^ laneAt block 8
      a9 := s.a9 ^^^ laneAt block 9
      a10 := s.a10 ^^^ laneAt block 10
      a11 := s.a11 ^^^ laneAt block 11
      a12 := s.a12 ^^^ laneAt block 12
      a13 := s.a13 ^^^ laneAt block 13
      a14 := s.a14 ^^^ laneAt block 14
      a15 := s.a15 ^^^ laneAt block 15
      a16 := s.a16 ^^^ laneAt block 16 }

/-- Keccak (pre-SHA-3) multi-rate padding for rate 136: append `0x01`,
zero-fill, end with `0x80` (a lone `0x81` when one byte is missing). -/
def keccakPad (msg : List Nat) : List Nat :=
  let r := 136 - msg.length % 136
  if r = 1 then msg ++ [0x81]
  else msg ++ [0x01] ++ List.replicate (r - 2) 0 ++ [0x80]

/-- Cut a padded message into 136-byte blocks (`fuel` bounds the recursion;
any `fuel ≥ l.length` is enough). -/
def splitBlocks : Nat → List Nat → List (List Nat)
  | 0, _ => []
  | _ + 1, [] => []
  | fuel + 1, b :: l => (b :: l).take 136 :: splitBlocks fuel ((b :: l).drop 136)

/-- The 8 little-endian bytes of a 64-bit lane. -/
def laneBytes (x : Nat) : List Nat :=
  [x % 256, (x >>> 8) % 256, (x >>> 16) % 256, (x >>> 24) % 256,
   (x >>> 32) % 256, (x >>> 40) % 256, (x >>> 48) % 256, (x >>> 56) % 256]

/-- Squeeze the 32-byte digest out of the first four lanes. -/
def keccakSqueeze (s : KeccakState) : List Nat :=
  laneBytes s.a0 ++ laneBytes s.a1 ++ laneBytes s.a2 ++ laneBytes s.a3

/-- Keccak-256 of a byte string: what `sha3::Keccak256` computes. -/
def keccak (msg : List Nat) : List Nat :=
  keccakSqueeze
    (((splitBlocks (msg.length + 136) (keccakPad msg))).foldl absorbBlock
      initKeccakState)

theorem laneBytes_isBytes (x : Nat) : IsBytes (laneBytes x) := by
  intro b hb
  simp only [laneBytes, List.mem_cons, List.not_mem_nil, or_false] at hb
  rcases hb with h | h | h | h | h | h | h | h <;>
    exact h ▸ Nat.mod_lt _ (by decide)

/-- Keccak-256 always produces a byte string. -/
theorem keccak_isBytes (msg : List Nat) : IsBytes (keccak msg) := by
  intro b hb
  simp only [keccak, keccakSqueeze, List.mem_append] at hb
  rcases hb with ((h | h) | h) | h <;> exact laneBytes_isBytes _ _ h

/-- Keccak-256 digests are 32 bytes long. -/
theorem keccak_length (msg : List Nat) : (keccak msg).length = 32 := by
  simp [keccak, keccakSqueeze, laneBytes]

/-- Test vector: `Keccak256("")`. -/
example :
    keccak [] =
      [0xc5, 0xd2, 0x46, 0x01, 0x86, 0xf7, 0x23, 0x3c,
       0x92, 0x7e, 0x7d, 0xb2, 0xdc, 0xc7, 0x03, 0xc0,
       0xe5, 0x00, 0xb6, 0x53, 0xca, 0x82, 0x27, 0x3b,
       0x7b, 0xfa, 0xd8, 0x04, 0x5d, 0x85, 0xa4, 0x70] := by
  decide

/-- Test vector: `Keccak256("abc")`. -/
example :
    keccak [0x61, 0x62, 0x63] =
      [0x4e, 0x03, 0x65, 0x7a, 0xea, 0x45, 0xa9, 0x4f,
       0xc7, 0xd4, 0x7b, 0xa8, 0x26, 0xc8, 0xd6, 0x67,
       0xc0, 0xd1, 0xe6, 0xe3, 0x3a, 0x64, 0xa0, 0x36,
       0xec, 0x44, 0xf5, 0x8f, 0xa1, 0x2d, 0x6c, 0x45] := by
  decide

/-! ## Hex encoding (the `hex` crate dependency)

`hex::encode` produces lowercase hex; `hex::decode` accepts both cases and
fails on odd length or non-hex characters. -/

/-- Lowercase hex digit for a nibble. -/
def hexDigitChar (n : Nat) : Char :=
  if n < 10 then Char.ofNat (48 + n) else Char.ofNat (87 + n)

/-- `hex::encode`: two lowercase digits per byte. -/
def hexEncode (bs : List Nat) : List Char :=
  bs.flatMap (fun b => [hexDigitChar (b / 16), hexDigitChar (b % 16)])

/-- Value of one hex digit (`0-9`, `a-f`, `A-F`), if any. -/
def hexDigitVal (c : Char) : Option Nat :=
  let n := c.toNat
  if 48 ≤ n ∧ n ≤ 57 then some (n - 48)
  else if 97 ≤ n ∧ n ≤ 102 then some (n - 87)
  else if 65 ≤ n ∧ n ≤ 70 then some (n - 55)
  else none

/-- `hex::decode`: fails on odd length or a non-hex character. -/
def hexDecode : List Char → Option (List Nat)
  | [] => some []
  | [_] => none
  | c1 :: c2 :: rest =>
    match hexDigitVal c1, hexDigitVal c2, hexDecode rest with
    | some hi, some lo, some bs => some ((16 * hi + lo) :: bs)
    | _, _, _ => none

theorem hexDigitVal_hexDigitChar : ∀ n, n < 16 → hexDigitVal (hexDigitChar n) = some n := by
  decide

/-- Decoding inverts encoding on byte strings. -/
theorem hexDecode_hexEncode : ∀ bs : List Nat, IsBytes bs → hexDecode (hexEncode bs) = some bs := by
  intro bs
  induction bs with
  | nil => intro _; rfl
  | cons b bs ih =>
    intro h
    have hb : b < 256 := h b (List.mem_cons_self b bs)
    have hbs : IsBytes bs := fun x hx => h x (List.mem_cons_of_mem b hx)
    have h1 : hexDigitVal (hexDigitChar (b / 16)) = some (b / 16) :=
      hexDigitVal_hexDigitChar _ (by omega)
    have h2 : hexDigitVal (hexDigitChar (b % 16)) = some (b % 16) :=
      hexDigitVal_hexDigitChar _ (by omega)
    have henc : hexEncode (b :: bs) =
        hexDigitChar (b / 16) :: hexDigitChar (b % 16) :: hexEncode bs := by
      simp [hexEncode]
    rw [henc]
    simp only [hexDecode, h1, h2, ih hbs]
    have hbval : 16 * (b / 16) + b % 16 = b := by omega
    rw [hbval]

/-! ## Level building (shared by `merkle_tree.rs` and `lmdb_tree.rs`)

Both incremental trees rebuild a full hash pyramid from the leaf list:
`for chunk in current.chunks(2) { let left = chunk[0]; let right =
chunk.get(1).unwrap_or(left); next.push(hash_pair(left, right)); }`. -/

/-- `hash_pair(left, right) = Keccak256(left ‖ right)` — no domain byte. -/
def hash_pair (H : List Nat → List Nat) (left right : List Nat) : List Nat :=
  H (left ++ right)

/-- One pass of the pyramid build: pair adjacent hashes, the unpaired last
element pairing with itself. -/
def nextLevel (H : List Nat → List Nat) : List (List Nat) → List (List Nat)
  | [] => []
  | [a] => [hash_pair H a a]
  | a :: b :: rest => hash_pair H a b :: nextLevel H rest

/-- All levels of the pyramid, bottom first.  `fuel` is the `max_depth` /
`MAX_LEVELS` bound checked before each promotion; the `Bool` is `false` when
the bound was hit with more than one element remaining (the source's early
return / `Err` path). -/
def buildLevelsP (H : List Nat → List Nat) : Nat → List (List Nat) → Bool × List (List (List Nat))
  | fuel, lvl =>
    if lvl.length ≤ 1 then (true, [lvl])
    else
      match fuel with
      | 0 => (false, [lvl])
      | fuel + 1 =>
        let r := buildLevelsP H fuel (nextLevel H lvl)
        (r.1, lvl :: r.2)

/-- `cached_hashes.last().first()`: the root entry of a built pyramid. -/
def lastRootOf (levels : List (List (List Nat))) : Option (List Nat) :=
  levels.getLast?.bind (·.head?)

/-! ## In-memory incremental Merkle tree (`src/merkle_tree.rs`) -/

/-- `MAX_LEAVES` of `merkle_tree.rs`: `1 << 11`. -/
def MAX_LEAVES_MEM : Nat := 1 <<< 11

/-- `MerkleProof` as `merkle_tree.rs` declares it (hex siblings plus direction
bits, `true` meaning the current node is on the left). -/
structure MerkleProof where
  siblings : List (List Char)
  directions : List Bool
deriving DecidableEq, Repr

/-- `IncrementalMerkleTree` state. -/
structure IncrementalMerkleTree where
  leaves : List (List Nat)
  cached_hashes : List (List (List Nat))
  cached_root : Option (List Nat)
  cache_valid : Bool
deriving DecidableEq, Repr

def IncrementalMerkleTree.new : IncrementalMerkleTree :=
  { leaves := [], cached_hashes := [], cached_root := none, cache_valid := true }

/-- `invalidate_cache`. -/
def IncrementalMerkleTree.invalidate_cache (t : IncrementalMerkleTree) : IncrementalMerkleTree :=
  { t with cache_valid := false, cached_root := none, cached_hashes := [] }

/-- `add_leaf`: the pair is (result, tree after the call) — `Err` leaves the
tree untouched. -/
def IncrementalMerkleTree.add_leaf (t : IncrementalMerkleTree) (leaf : List Nat) :
    Except String Unit × IncrementalMerkleTree :=
  if t.leaves.length ≥ MAX_LEAVES_MEM then
    (.error "Exceeded max number of leaves in merkle tree", t)
  else
    (.ok (), { t with leaves := t.leaves ++ [leaf] }.invalidate_cache)

/-- `add_leaves`: all-or-nothing append. -/
def IncrementalMerkleTree.add_leaves (t : IncrementalMerkleTree) (ls : List (List Nat)) :
    Except String Unit × IncrementalMerkleTree :=
  if t.leaves.length + ls.length > MAX_LEAVES_MEM then
    (.error "Exceeded max number of leaves in merkle tree", t)
  else
    (.ok (), { t with leaves := t.leaves ++ ls }.invalidate_cache)

def IncrementalMerkleTree.num_leaves (t : IncrementalMerkleTree) : Nat :=
  t.leaves.length

/-- `compute_tree`: rebuild all levels (level 0 = the leaves themselves) and
cache the root.  On hitting `max_depth = 64` the source returns early with the
partial pyramid cached and `cache_valid` / `cached_root` untouched. -/
def IncrementalMerkleTree.compute_tree (H : List Nat → List Nat)
    (t : IncrementalMerkleTree) : IncrementalMerkleTree :=
  if t.leaves.isEmpty then t
  else
    let r := buildLevelsP H 64 t.leaves
    if r.1 then
      { t with
        cached_hashes := r.2
        cached_root := match lastRootOf r.2 with
          | some rt => some rt
          | none => t.cached_root
        cache_valid := true }
    else
      { t with cached_hashes := r.2 }

/-- `root(&mut self)`: recomputes when the cache is invalid; the pair is
(returned value, tree after the call). -/
def IncrementalMerkleTree.root (H : List Nat → List Nat) (t : IncrementalMerkleTree) :
    Option (List Nat) × IncrementalMerkleTree :=
  if t.leaves.isEmpty then (none, t)
  else if t.cache_valid && t.cached_root.isSome then (t.cached_root, t)
  else
    let t1 := t.compute_tree H
    (t1.cached_root, t1)

/-- The `loop` of `get_proof`: climb the cached levels, emitting the sibling
hash (or the node's own hash when the sibling index is out of range) and the
direction bit; stop at a level of size ≤ 1; `cached_hashes.get(...)?` failing
aborts the whole proof. -/
def imtProofLoop : List (List (List Nat)) → Bool → Nat → Nat →
    Option (List (List Char) × List Bool)
  | [], _, _, _ => none
  | lvl :: rest, isFirst, numLeaves, idx =>
    let size := if isFirst then numLeaves else lvl.length
    if size ≤ 1 then some ([], [])
    else
      let sibIdx := if idx % 2 == 0 then idx + 1 else idx - 1
      let here : List (List Char) × List Bool :=
        if sibIdx < size then
          match lvl.get? sibIdx with
          | some sh => ([hexEncode sh], [idx % 2 == 0])
          | none => ([], [])
        else
          match lvl.get? idx with
          | some sh => ([hexEncode sh], [false])
          | none => ([], [])
      match imtProofLoop rest false numLeaves (idx / 2) with
      | some (s, d) => some (here.1 ++ s, here.2 ++ d)
      | none => none

/-- `get_proof(&mut self, index)`: recompute if invalid, then walk the levels. -/
def IncrementalMerkleTree.get_proof (H : List Nat → List Nat)
    (t : IncrementalMerkleTree) (index : Nat) :
    Option MerkleProof × IncrementalMerkleTree :=
  if index ≥ t.leaves.length then (none, t)
  else
    let t1 := if t.cache_valid then t else t.compute_tree H
    ((imtProofLoop t1.cached_hashes true t1.leaves.length index).map
      (fun p => { siblings := p.1, directions := p.2 }), t1)

/-- The verification fold of `_verify_proof`: direction `true` means the
current node is on the left.  A malformed hex sibling aborts with `none`. -/
def dirFold (H : List Nat → List Nat) : List Nat → List (List Char × Bool) → Option (List Nat)
  | cur, [] => some cur
  | cur, (sh, isRight) :: rest =>
    match hexDecode sh with
    | none => none
    | some sib =>
      dirFold H (if isRight then hash_pair H cur sib else hash_pair H sib cur) rest

/-- `_verify_proof(leaf, proof, root)`. -/
def IncrementalMerkleTree.verify_proof (H : List Nat → List Nat)
    (leaf : List Nat) (proof : MerkleProof) (root : List Nat) : Bool :=
  if proof.siblings.length ≠ proof.directions.length then false
  else
    match dirFold H leaf (proof.siblings.zip proof.directions) with
    | some h => h == root
    | none => false

/-! ## The node store (`src/storage.rs`)

`LmdbStorage` opens one LMDB file with three sub-databases.  Writes commit a
transaction per call.  The model:

* `leaves`: big-endian `usize` keys, so the cursor of `get_all_leaves` yields
  them in numeric (= insertion) order; the tree only ever writes at the
  current leaf count, modelled as an ordered list.
* `cache_levels`: the `level_<ℓ>` entries of the `cache` sub-database
  (bincode-serialized level vectors), indexed by level; `store_cache_batch`
  overwrites per key.  `get_all_cache_levels` walks a cursor over the whole
  sub-database, which LMDB yields in byte-lexicographic order of the textual
  keys — modelled by sorting the keys explicitly.
* `nodes`: the `"<ℓℓ>:<index_hex16>"` entries of the `cache` sub-database
  (sparse-tree nodes), modelled as an association list where a later `put`
  shadows an earlier one.
* `metadata`: the `tree_metadata` and `cached_root` slots. -/

/-- `TreeMetadata` of `storage.rs`. -/
structure TreeMetadata where
  num_leaves : Nat
  max_leaves : Nat
deriving DecidableEq, Repr

/-- The logical content of an `LmdbStorage` environment. -/
structure LmdbStorage where
  leaves : List (List Nat)
  cache_levels : List (List (List Nat))
  nodes : List ((Nat × Nat) × List Nat)
  metadata : Option TreeMetadata
  cached_root : Option (List Nat)
deriving DecidableEq, Repr

/-- A freshly created store (no entries in any sub-database). -/
def LmdbStorage.new : LmdbStorage :=
  { leaves := [], cache_levels := [], nodes := [], metadata := none, cached_root := none }

/-- `store_leaf(index, leaf)`: a `put` at the big-endian index key.  The trees
only call this at `index = num_leaves()` (an append); a smaller index is a key
overwrite. -/
def LmdbStorage.store_leaf (s : LmdbStorage) (index : Nat) (leaf : List Nat) : LmdbStorage :=
  { s with
    leaves :=
      if index < s.leaves.length then s.leaves.set index leaf
      else s.leaves ++ [leaf] }

/-- `append_leaves(start_index, leaves)`: one `put` per leaf at consecutive
keys, in one transaction. -/
def LmdbStorage.append_leaves (s : LmdbStorage) (start : Nat) :
    List (List Nat) → LmdbStorage
  | [] => s
  | l :: ls => (s.store_leaf start l).append_leaves (start + 1) ls

/-- `get_all_leaves`: cursor over the `leaves` sub-database (numeric key
order). -/
def LmdbStorage.get_all_leaves (s : LmdbStorage) : List (List Nat) :=
  s.leaves

/-- `store_cache_batch(cache_levels)`: a `put` per `level_<ℓ>` key for
ℓ = 0, 1, …, in one transaction; existing entries at those keys are
overwritten, entries at higher levels (never present in reachable stores,
since leaf counts only grow) survive. -/
def LmdbStorage.store_cache_batch (s : LmdbStorage) (levels : List (List (List Nat))) :
    LmdbStorage :=
  { s with cache_levels := levels ++ s.cache_levels.drop levels.length }

/-- `clear_cache`: `clear_db` on the shared `cache` sub-database drops both
the level entries and the sparse-tree node entries. -/
def LmdbStorage.clear_cache (s : LmdbStorage) : LmdbStorage :=
  { s with cache_levels := [], nodes := [] }

/-- The textual key `level_<i>` (as its character list). -/
def levelKey (i : Nat) : List Char :=
  'l' :: 'e' :: 'v' :: 'e' :: 'l' :: '_' :: Nat.toDigits 10 i

/-- Byte-lexicographic comparison of textual keys: `memcmp` over the shared
length, a strict prefix ordering first — LMDB's default key order. -/
def charListLt : List Char → List Char → Bool
  | [], [] => false
  | [], _ :: _ => true
  | _ :: _, [] => false
  | a :: as, b :: bs =>
    if a.toNat < b.toNat then true
    else if b.toNat < a.toNat then false
    else charListLt as bs

/-- Insert into a list sorted by `lt` (stable). -/
def insOrdered (lt : α → α → Bool) (x : α) : List α → List α
  | [] => [x]
  | y :: ys => if lt y x then y :: insOrdered lt x ys else x :: y :: ys

/-- Insertion sort by `lt`. -/
def insSort (lt : α → α → Bool) : List α → List α
  | [] => []
  | x :: xs => insOrdered lt x (insSort lt xs)

/-- Pair each level with its textual storage key. -/
def keyedLevels : Nat → List (List (List Nat)) → List (List Char × List (List Nat))
  | _, [] => []
  | i, l :: ls => (levelKey i, l) :: keyedLevels (i + 1) ls

/-- `get_all_cache_levels`: cursor over the `cache` sub-database.  LMDB yields
entries in byte-lexicographic order of their textual `level_<ℓ>` keys (so
`level_10` sorts between `level_1` and `level_2` once ℓ ≥ 10 exists). -/
def LmdbStorage.get_all_cache_levels (s : LmdbStorage) : List (List (List Nat)) :=
  (insSort (fun a b => charListLt a.1 b.1) (keyedLevels 0 s.cache_levels)).map (·.2)

/-- `store_metadata`. -/
def LmdbStorage.store_metadata (s : LmdbStorage) (m : TreeMetadata) : LmdbStorage :=
  { s with metadata := some m }

/-- `get_metadata`. -/
def LmdbStorage.get_metadata (s : LmdbStorage) : Option TreeMetadata :=
  s.metadata

/-- `store_root`. -/
def LmdbStorage.store_root (s : LmdbStorage) (root : List Nat) : LmdbStorage :=
  { s with cached_root := some root }

/-- `get_root`. -/
def LmdbStorage.get_root (s : LmdbStorage) : Option (List Nat) :=
  s.cached_root

/-- `store_node(level, index, hash)`: a `put` at key `"<ℓℓ>:<index_hex16>"`;
the newest entry shadows older ones at the same key. -/
def LmdbStorage.store_node (s : LmdbStorage) (level : Nat) (index : Nat)
    (hash : List Nat) : LmdbStorage :=
  { s with nodes := ((level, index), hash) :: s.nodes }

/-- `get_node(level, index)`. -/
def LmdbStorage.get_node (s : LmdbStorage) (level : Nat) (index : Nat) :
    Option (List Nat) :=
  (s.nodes.find? (fun e => e.1 == (level, index))).map (·.2)

/-- Modelled from the spec: `store_path_batch(updates)` is called by
`sparse_merkle_tree.rs` and `optimized_sparse_tree.rs` but its body is not
among the sources; §4.2 specifies a single write transaction covering all
`(level, index, hash)` entries on the node space. -/
def LmdbStorage.store_path_batch (s : LmdbStorage) :
    List (Nat × Nat × List Nat) → LmdbStorage
  | [] => s
  | (l, i, h) :: rest => (s.store_node l i h).store_path_batch rest

/-- `sync`: durability only; no logical state change. -/
def LmdbStorage.sync (s : LmdbStorage) : LmdbStorage := s

/-! ## Persistent incremental Merkle tree (`src/lmdb_tree.rs`) -/

/-- `MAX_LEVELS` of `lmdb_tree.rs`. -/
def MAX_LEVELS : Nat := 32

/-- `MAX_LEAVES` of `lmdb_tree.rs`: `1 << MAX_LEVELS`. -/
def MAX_LEAVES_LMDB : Nat := 1 <<< MAX_LEVELS

/-- The proof `lmdb_tree.rs` constructs: siblings only (its
`MerkleProof { siblings }` literal carries no direction bits; the verifier
derives directions from the leaf index instead). -/
structure LmdbMerkleProof where
  siblings : List (List Char)
deriving DecidableEq, Repr

/-- `LmdbMerkleTree`: the store plus the configured ceiling. -/
structure LmdbMerkleTree where
  storage : LmdbStorage
  max_leaves : Nat
deriving DecidableEq, Repr

/-- `LmdbMerkleTree::new`: resume `max_leaves` from stored metadata, else the
default `MAX_LEAVES`. -/
def LmdbMerkleTree.new (storage : LmdbStorage) : LmdbMerkleTree :=
  { storage
    max_leaves :=
      match storage.get_metadata with
      | some m => m.max_leaves
      | none => MAX_LEAVES_LMDB }

/-- `num_leaves`: stored metadata count, falling back to scanning the leaves. -/
def LmdbMerkleTree.num_leaves (t : LmdbMerkleTree) : Nat :=
  match t.storage.get_metadata with
  | some m => m.num_leaves
  | none => t.storage.get_all_leaves.length

/-- `recompute_and_store_tree`: read all leaves, rebuild every level (erroring
past `MAX_LEVELS` before anything is written), then store the cache batch, the
root, the metadata, and sync. -/
def LmdbMerkleTree.recompute_and_store_tree (H : List Nat → List Nat)
    (t : LmdbMerkleTree) : Except String LmdbStorage :=
  let leaves := t.storage.get_all_leaves
  if leaves.isEmpty then
    .ok ((t.storage.clear_cache).store_metadata ⟨0, t.max_leaves⟩)
  else
    let r := buildLevelsP H MAX_LEVELS leaves
    if r.1 then
      let s1 := t.storage.store_cache_batch r.2
      let s2 :=
        match lastRootOf r.2 with
        | some rt => s1.store_root rt
        | none => s1
      .ok (((s2.store_metadata ⟨leaves.length, t.max_leaves⟩)).sync)
    else
      .error "Exceeded max levels"

/-- `add_leaf`: capacity check, store the leaf (own transaction), recompute.
The pair is (result, tree after the call); a recompute failure leaves the
already-committed leaf behind. -/
def LmdbMerkleTree.add_leaf (H : List Nat → List Nat) (t : LmdbMerkleTree)
    (leaf : List Nat) : Except String Unit × LmdbMerkleTree :=
  let current_count := t.num_leaves
  if current_count ≥ t.max_leaves then
    (.error "Exceeded max number of leaves in merkle tree", t)
  else
    let s1 := t.storage.store_leaf current_count leaf
    match LmdbMerkleTree.recompute_and_store_tree H { t with storage := s1 } with
    | .ok s2 => (.ok (), { t with storage := s2 })
    | .error _ => (.error "Failed to recompute tree", { t with storage := s1 })

/-- `add_leaves`: capacity check on the total, append batch, recompute. -/
def LmdbMerkleTree.add_leaves (H : List Nat → List Nat) (t : LmdbMerkleTree)
    (ls : List (List Nat)) : Except String Unit × LmdbMerkleTree :=
  let current_count := t.num_leaves
  if current_count + ls.length > t.max_leaves then
    (.error "Exceeded max number of leaves in merkle tree", t)
  else
    let s1 := t.storage.append_leaves current_count ls
    match LmdbMerkleTree.recompute_and_store_tree H { t with storage := s1 } with
    | .ok s2 => (.ok (), { t with storage := s2 })
    | .error _ => (.error "Failed to recompute tree", { t with storage := s1 })

/-- `root()`: `None` on an empty tree, else the stored root. -/
def LmdbMerkleTree.root (t : LmdbMerkleTree) : Option (List Nat) :=
  if t.num_leaves = 0 then none else t.storage.get_root

/-- The `for _ in 0..MAX_LEVELS` proof loop of `lmdb_tree.rs`: like the
in-memory loop but with a 32-iteration cap (falling out of the loop still
returns the proof collected so far). -/
def lmdbProofLoop : Nat → List (List (List Nat)) → Bool → Nat → Nat →
    Option (List (List Char))
  | 0, _, _, _, _ => some []
  | _ + 1, [], _, _, _ => none
  | fuel + 1, lvl :: rest, isFirst, numLeaves, idx =>
    let size := if isFirst then numLeaves else lvl.length
    if size ≤ 1 then some []
    else
      let sibIdx := if idx % 2 == 0 then idx + 1 else idx - 1
      let here : List (List Char) :=
        if sibIdx < size then
          match lvl.get? sibIdx with
          | some sh => [hexEncode sh]
          | none => []
        else
          match lvl.get? idx with
          | some sh => [hexEncode sh]
          | none => []
      match lmdbProofLoop fuel rest false numLeaves (idx / 2) with
      | some s => some (here ++ s)
      | none => none

/-- `get_proof(index)`: bounds check, read the whole cache cursor, climb. -/
def LmdbMerkleTree.get_proof (t : LmdbMerkleTree) (index : Nat) :
    Option LmdbMerkleProof :=
  let num := t.num_leaves
  if index ≥ num then none
  else
    let cache_levels := t.storage.get_all_cache_levels
    if cache_levels.isEmpty then none
    else (lmdbProofLoop MAX_LEVELS cache_levels true num index).map ({ siblings := · })

/-- The verification fold of `LmdbMerkleTree::verify_proof`: directions come
from the successively halved leaf index. -/
def idxFold (H : List Nat → List Nat) : List Nat → Nat → List (List Char) →
    Option (List Nat)
  | cur, _, [] => some cur
  | cur, idx, sh :: rest =>
    match hexDecode sh with
    | none => none
    | some sib =>
      idxFold H (if idx % 2 == 0 then hash_pair H cur sib else hash_pair H sib cur)
        (idx / 2) rest

/-- `verify_proof(leaf, proof, root, leaf_index)`. -/
def LmdbMerkleTree.verify_proof (H : List Nat → List Nat) (leaf : List Nat)
    (proof : LmdbMerkleProof) (root : List Nat) (leaf_index : Nat) : Bool :=
  match idxFold H leaf leaf_index proof.siblings with
  | some h => h == root
  | none => false

/-! ## Sparse Merkle tree (`src/sparse_merkle_tree.rs`) -/

/-- `DEFAULT_DEPTH` of `sparse_merkle_tree.rs`. -/
def DEFAULT_DEPTH : Nat := 32

/-- `SparseMerkleProof`: one hex sibling per level, leaf upward. -/
structure SparseMerkleProof where
  siblings : List (List Char)
deriving DecidableEq, Repr

/-- `keccak(data)` — the free helper of `sparse_merkle_tree.rs` (the `H`
parameter of this embedding stands for it; `keccak` instantiates it). -/
def smtKeccak (H : List Nat → List Nat) (data : List Nat) : List Nat := H data

/-- `bit_at(hash, i)`: MSB-first bit `i` of a 32-byte digest. -/
def bit_at (hash : List Nat) (i : Nat) : Nat :=
  ((hash.getD (i / 8) 0) >>> (7 - i % 8)) &&& 1

/-- `leaf_index_from_key_hash`: the top `depth` bits of the key hash,
MSB-first. -/
def leaf_index_from_key_hash (depth : Nat) (kh : List Nat) : Nat :=
  (List.range depth).foldl (fun idx i => idx * 2 + bit_at kh i) 0

/-- `hash_leaf(key_hash, value) = H(0x00 ‖ key_hash ‖ H(value))`. -/
def hash_leaf (H : List Nat → List Nat) (key_hash value : List Nat) : List Nat :=
  H (0 :: (key_hash ++ H value))

/-- `hash_internal(left, right) = H(0x01 ‖ left ‖ right)`. -/
def hash_internal (H : List Nat → List Nat) (left right : List Nat) : List Nat :=
  H (1 :: (left ++ right))

/-- The per-level default hash: `empty[0] = H(0x02)`,
`empty[i+1] = H(0x01 ‖ empty[i] ‖ empty[i])`. -/
def emptyHash (H : List Nat → List Nat) : Nat → List Nat
  | 0 => H [2]
  | l + 1 => hash_internal H (emptyHash H l) (emptyHash H l)

/-- `compute_empty(depth)`: the precomputed table `empty[0..=depth]`. -/
def compute_empty (H : List Nat → List Nat) (depth : Nat) : List (List Nat) :=
  (List.range (depth + 1)).map (emptyHash H)

/-- The table holds exactly the `emptyHash` chain. -/
theorem compute_empty_getD (H : List Nat → List Nat) (depth l : Nat) (h : l ≤ depth) :
    (compute_empty H depth).getD l [] = emptyHash H l := by
  simp [compute_empty, List.getD, List.getElem?_map, List.getElem?_range, Nat.lt_succ_of_le h]

/-- `SparseMerkleTree`: LMDB store, empty table (kept as its generating
function), depth ≤ 64. -/
structure SparseMerkleTree where
  storage : LmdbStorage
  depth : Nat
deriving DecidableEq, Repr

/-- `SparseMerkleTree::new(path, depth)` over a fresh store. -/
def SparseMerkleTree.new (storage : LmdbStorage) (depth : Nat) : SparseMerkleTree :=
  { storage, depth }

/-- The `for level in 0..depth` walk of `insert`: read the current sibling
(default `empty[level]`), combine by the low bit of the index, push the
parent write, halve the index.  All sibling reads see the pre-insert store;
the writes go out in one batch afterwards. -/
def insertLoop (H : List Nat → List Nat) (s : LmdbStorage) :
    Nat → Nat → Nat → List Nat → List (Nat × Nat × List Nat)
  | _, 0, _, _ => []
  | level, fuel + 1, idx, cur =>
    let sib := (s.get_node level (idx ^^^ 1)).getD (emptyHash H level)
    let parent :=
      if idx % 2 = 0 then hash_internal H cur sib else hash_internal H sib cur
    (level + 1, idx / 2, parent) :: insertLoop H s (level + 1) fuel (idx / 2) parent

/-- `insert(key, value)`: derive the position from `Keccak256(key)`, build the
`depth + 1` path updates, commit them in one `store_path_batch`. -/
def SparseMerkleTree.insert (H : List Nat → List Nat) (t : SparseMerkleTree)
    (key value : List Nat) : SparseMerkleTree :=
  let kh := smtKeccak H key
  let leaf_hash := hash_leaf H kh value
  let idx := leaf_index_from_key_hash t.depth kh
  let updates := (0, idx, leaf_hash) :: insertLoop H t.storage 0 t.depth idx leaf_hash
  { t with storage := t.storage.store_path_batch updates }

/-- `root()`: the node at `(depth, 0)`, defaulting to the empty root. -/
def SparseMerkleTree.root (H : List Nat → List Nat) (t : SparseMerkleTree) : List Nat :=
  (t.storage.get_node t.depth 0).getD (emptyHash H t.depth)

/-- The sibling walk of `get_proof`. -/
def proofLoop (H : List Nat → List Nat) (s : LmdbStorage) :
    Nat → Nat → Nat → List (List Char)
  | _, 0, _ => []
  | level, fuel + 1, idx =>
    let sib := (s.get_node level (idx ^^^ 1)).getD (emptyHash H level)
    hexEncode sib :: proofLoop H s (level + 1) fuel (idx / 2)

/-- `get_proof(key)`: `depth` siblings, unmaterialized ones defaulting to the
per-level empty. -/
def SparseMerkleTree.get_proof (H : List Nat → List Nat) (t : SparseMerkleTree)
    (key : List Nat) : SparseMerkleProof :=
  let kh := smtKeccak H key
  let idx := leaf_index_from_key_hash t.depth kh
  { siblings := proofLoop H t.storage 0 t.depth idx }

/-- The verification fold shared by `verify_membership` and
`verify_non_membership`: combine with `hash_internal`, sides chosen by the low
bit of the successively halved index; malformed hex aborts. -/
def smtFold (H : List Nat → List Nat) : List Nat → Nat → List (List Char) →
    Option (List Nat)
  | cur, _, [] => some cur
  | cur, idx, sh :: rest =>
    match hexDecode sh with
    | none => none
    | some sib =>
      smtFold H (if idx % 2 = 0 then hash_internal H cur sib else hash_internal H sib cur)
        (idx / 2) rest

/-- `verify_membership(key, value, proof, root)`. -/
def SparseMerkleTree.verify_membership (H : List Nat → List Nat)
    (t : SparseMerkleTree) (key value : List Nat) (proof : SparseMerkleProof)
    (root : List Nat) : Bool :=
  if proof.siblings.length ≠ t.depth then false
  else
    let kh := smtKeccak H key
    let cur := hash_leaf H kh value
    let idx := leaf_index_from_key_hash t.depth kh
    match smtFold H cur idx proof.siblings with
    | some c => c == root
    | none => false

/-- `verify_non_membership(key, proof, root)`: fold from the default empty
leaf. -/
def SparseMerkleTree.verify_non_membership (H : List Nat → List Nat)
    (t : SparseMerkleTree) (key : List Nat) (proof : SparseMerkleProof)
    (root : List Nat) : Bool :=
  if proof.siblings.length ≠ t.depth then false
  else
    let kh := smtKeccak H key
    let idx := leaf_index_from_key_hash t.depth kh
    match smtFold H (emptyHash H 0) idx proof.siblings with
    | some c => c == root
    | none => false

/-! ## Optimized sparse tree (`src/optimized_sparse_tree.rs`) -/

/-- `TREE_DEPTH` of `optimized_sparse_tree.rs`. -/
def TREE_DEPTH : Nat := 32

/-- `MAX_LEAVES` of `optimized_sparse_tree.rs`: `1 << TREE_DEPTH`. -/
def MAX_LEAVES_OPT : Nat := 1 <<< TREE_DEPTH

structure OptimizedSparseMerkleProof where
  siblings : List (List Char)
deriving DecidableEq, Repr

/-- `OptimizedSparseMerkleTree`: one `empty_hash` for every level. -/
structure OptimizedSparseMerkleTree where
  storage : LmdbStorage
deriving DecidableEq, Repr

/-- `compute_empty_hash() = Keccak256(0x00)` — a single default hash, used at
every level (unlike the per-level `empty[ℓ]` chain). -/
def compute_empty_hash (H : List Nat → List Nat) : List Nat := H [0]

/-- `hash_leaf(value) = Keccak256(value)` — no domain byte, no key binding. -/
def opt_hash_leaf (H : List Nat → List Nat) (value : List Nat) : List Nat := H value

/-- The path walk of `add_leaf` (sibling default: the single `empty_hash`;
combination: plain `hash_pair`, no domain byte). -/
def optInsertLoop (H : List Nat → List Nat) (s : LmdbStorage) :
    Nat → Nat → Nat → List Nat → List (Nat × Nat × List Nat)
  | _, 0, _, _ => []
  | level, fuel + 1, idx, cur =>
    let sib := (s.get_node level (idx ^^^ 1)).getD (compute_empty_hash H)
    let parent := if idx % 2 = 0 then hash_pair H cur sib else hash_pair H sib cur
    (level + 1, idx / 2, parent) :: optInsertLoop H s (level + 1) fuel (idx / 2) parent

/-- `add_leaf(index, value)`: index-addressed path update, one batch. -/
def OptimizedSparseMerkleTree.add_leaf (H : List Nat → List Nat)
    (t : OptimizedSparseMerkleTree) (index : Nat) (value : List Nat) :
    Except String OptimizedSparseMerkleTree :=
  if index ≥ MAX_LEAVES_OPT then .error "Index exceeds maximum tree capacity"
  else
    let leaf_hash := opt_hash_leaf H value
    let updates := (0, index, leaf_hash) :: optInsertLoop H t.storage 0 TREE_DEPTH index leaf_hash
    .ok { t with storage := t.storage.store_path_batch updates }

/-- `get_root()`: node `(depth, 0)`, defaulting to the single `empty_hash`. -/
def OptimizedSparseMerkleTree.get_root (H : List Nat → List Nat)
    (t : OptimizedSparseMerkleTree) : List Nat :=
  (t.storage.get_node TREE_DEPTH 0).getD (compute_empty_hash H)

/-- The sibling walk of the optimized `get_proof`. -/
def optProofLoop (H : List Nat → List Nat) (s : LmdbStorage) :
    Nat → Nat → Nat → List (List Char)
  | _, 0, _ => []
  | level, fuel + 1, idx =>
    let sib := (s.get_node level (idx ^^^ 1)).getD (compute_empty_hash H)
    hexEncode sib :: optProofLoop H s (level + 1) fuel (idx / 2)

/-- `get_proof(index)`. -/
def OptimizedSparseMerkleTree.get_proof (H : List Nat → List Nat)
    (t : OptimizedSparseMerkleTree) (index : Nat) :
    Except String OptimizedSparseMerkleProof :=
  if index ≥ MAX_LEAVES_OPT then .error "Index exceeds maximum tree capacity"
  else .ok { siblings := optProofLoop H t.storage 0 TREE_DEPTH index }

/-- The verification fold of the optimized `verify_proof` (plain
`hash_pair`). -/
def optFold (H : List Nat → List Nat) : List Nat → Nat → List (List Char) →
    Option (List Nat)
  | cur, _, [] => some cur
  | cur, idx, sh :: rest =>
    match hexDecode sh with
    | none => none
    | some sib =>
      optFold H (if idx % 2 = 0 then hash_pair H cur sib else hash_pair H sib cur)
        (idx / 2) rest

/-- `verify_proof(leaf_value, proof, root, index)`: rejects an out-of-range
index or a sibling count ≠ depth, then folds from `Keccak256(leaf_value)`. -/
def OptimizedSparseMerkleTree.verify_proof (H : List Nat → List Nat)
    (leaf_value : List Nat) (proof : OptimizedSparseMerkleProof)
    (root : List Nat) (index : Nat) : Bool :=
  if index ≥ MAX_LEAVES_OPT ∨ proof.siblings.length ≠ TREE_DEPTH then false
  else
    match optFold H (opt_hash_leaf H leaf_value) index proof.siblings with
    | some c => c == root
    | none => false

/-! ## General lemmas -/

/-- XOR with 1 on an even number sets the low bit. -/
theorem xor_one_of_even (p : Nat) (h : p % 2 = 0) : p ^^^ 1 = p + 1 := by
  obtain ⟨k, rfl⟩ : ∃ k, p = 2 * k := ⟨p / 2, by omega⟩
  have hb := Nat.xor_bit false k true 0
  simpa [Nat.bit] using hb

/-- XOR with 1 on an odd number clears the low bit. -/
theorem xor_one_of_odd (p : Nat) (h : p % 2 = 1) : p ^^^ 1 = p - 1 := by
  obtain ⟨k, rfl⟩ : ∃ k, p = 2 * k + 1 := ⟨p / 2, by omega⟩
  have hb := Nat.xor_bit true k true 0
  simpa [Nat.bit] using hb

/-- A node is never its own sibling. -/
theorem xor_one_ne (p : Nat) : p ^^^ 1 ≠ p := by
  rcases Nat.mod_two_eq_zero_or_one p with h | h
  · rw [xor_one_of_even p h]; omega
  · rw [xor_one_of_odd p h]; omega

/-- Halving twice is dividing by the next power of two. -/
theorem div_pow_succ (p l : Nat) : p / 2 ^ l / 2 = p / 2 ^ (l + 1) := by
  rw [Nat.div_div_eq_div_mul, pow_succ]

/-- Every per-level empty hash is an output of `H`. -/
theorem emptyHash_isBytes (H : List Nat → List Nat) (hH : ∀ x, IsBytes (H x)) :
    ∀ l, IsBytes (emptyHash H l)
  | 0 => hH _
  | _ + 1 => hH _

/-- All values a store holds on the node space are byte strings (true of every
reachable store: only hash digests are written there). -/
def StoreIsBytes (s : LmdbStorage) : Prop :=
  ∀ l i v, s.get_node l i = some v → IsBytes v

/-! ## Verifier rejection lemmas (claim C4) -/

theorem idxFold_malformed (H : List Nat → List Nat) :
    ∀ (sibs : List (List Char)) (cur : List Nat) (idx : Nat),
      (∃ s ∈ sibs, hexDecode s = none) → idxFold H cur idx sibs = none
  | [], _, _, h => absurd h (by simp)
  | s :: rest, cur, idx, h => by
    cases hd : hexDecode s with
    | none => simp [idxFold, hd]
    | some sib =>
      rcases h with ⟨x, hx, hxd⟩
      rcases List.mem_cons.mp hx with rfl | hxr
      · rw [hd] at hxd; exact absurd hxd (by simp)
      · simp only [idxFold, hd]
        exact idxFold_malformed H rest _ _ ⟨x, hxr, hxd⟩

theorem smtFold_malformed (H : List Nat → List Nat) :
    ∀ (sibs : List (List Char)) (cur : List Nat) (idx : Nat),
      (∃ s ∈ sibs, hexDecode s = none) → smtFold H cur idx sibs = none
  | [], _, _, h => absurd h (by simp)
  | s :: rest, cur, idx, h => by
    cases hd : hexDecode s with
    | none => simp [smtFold, hd]
    | some sib =>
      rcases h with ⟨x, hx, hxd⟩
      rcases List.mem_cons.mp hx with rfl | hxr
      · rw [hd] at hxd; exact absurd hxd (by simp)
      · simp only [smtFold, hd]
        exact smtFold_malformed H rest _ _ ⟨x, hxr, hxd⟩

theorem optFold_malformed (H : List Nat → List Nat) :
    ∀ (sibs : List (List Char)) (cur : List Nat) (idx : Nat),
      (∃ s ∈ sibs, hexDecode s = none) → optFold H cur idx sibs = none
  | [], _, _, h => absurd h (by simp)
  | s :: rest, cur, idx, h => by
    cases hd : hexDecode s with
    | none => simp [optFold, hd]
    | some sib =>
      rcases h with ⟨x, hx, hxd⟩
      rcases List.mem_cons.mp hx with rfl | hxr
      · rw [hd] at hxd; exact absurd hxd (by simp)
      · simp only [optFold, hd]
        exact optFold_malformed H rest _ _ ⟨x, hxr, hxd⟩

theorem dirFold_malformed (H : List Nat → List Nat) :
    ∀ (sibs : List (List Char)) (dirs : List Bool) (cur : List Nat),
      sibs.length = dirs.length → (∃ s ∈ sibs, hexDecode s = none) →
      dirFold H cur (sibs.zip dirs) = none
  | [], _, _, _, h => absurd h (by simp)
  | s :: rest, [], _, hlen, _ => by simp at hlen
  | s :: rest, d :: ds, cur, hlen, h => by
    cases hd : hexDecode s with
    | none => simp [dirFold, hd]
    | some sib =>
      rcases h with ⟨x, hx, hxd⟩
      rcases List.mem_cons.mp hx with rfl | hxr
      · rw [hd] at hxd; exact absurd hxd (by simp)
      · simp only [List.zip_cons_cons, dirFold, hd]
        exact dirFold_malformed H rest ds _ (by simpa using hlen) ⟨x, hxr, hxd⟩

/-- C4 (amended): every verifier rejects a proof with a malformed hex sibling;
the sparse verifiers (`SparseMerkleTree::verify_membership`,
`verify_non_membership`, `OptimizedSparseMerkleTree::verify_proof`) reject a
sibling count different from their depth.  (The incremental-tree verifiers
take no leaf count and do not length-check, see the counterexample.) -/
theorem C4_verifiers_reject_malformed_and_length :
    (∀ (H : List Nat → List Nat) (leaf : List Nat) (proof : LmdbMerkleProof)
        (root : List Nat) (idx : Nat),
      (∃ s ∈ proof.siblings, hexDecode s = none) →
      LmdbMerkleTree.verify_proof H leaf proof root idx = false) ∧
    (∀ (H : List Nat → List Nat) (leaf : List Nat) (proof : MerkleProof)
        (root : List Nat),
      (∃ s ∈ proof.siblings, hexDecode s = none) →
      IncrementalMerkleTree.verify_proof H leaf proof root = false) ∧
    (∀ (H : List Nat → List Nat) (t : SparseMerkleTree) (k v : List Nat)
        (proof : SparseMerkleProof) (root : List Nat),
      proof.siblings.length ≠ t.depth →
      t.verify_membership H k v proof root = false) ∧
    (∀ (H : List Nat → List Nat) (t : SparseMerkleTree) (k : List Nat)
        (proof : SparseMerkleProof) (root : List Nat),
      proof.siblings.length ≠ t.depth →
      t.verify_non_membership H k proof root = false) ∧
    (∀ (H : List Nat → List Nat) (t : SparseMerkleTree) (k v : List Nat)
        (proof : SparseMerkleProof) (root : List Nat),
      (∃ s ∈ proof.siblings, hexDecode s = none) →
      t.verify_membership H k v proof root = false) ∧
    (∀ (H : List Nat → List Nat) (t : SparseMerkleTree) (k : List Nat)
        (proof : SparseMerkleProof) (root : List Nat),
      (∃ s ∈ proof.siblings, hexDecode s = none) →
      t.verify_non_membership H k proof root = false) ∧
    (∀ (H : List Nat → List Nat) (lv : List Nat) (proof : OptimizedSparseMerkleProof)
        (root : List Nat) (idx : Nat),
      proof.siblings.length ≠ TREE_DEPTH →
      OptimizedSparseMerkleTree.verify_proof H lv proof root idx = false) ∧
    (∀ (H : List Nat → List Nat) (lv : List Nat) (proof : OptimizedSparseMerkleProof)
        (root : List Nat) (idx : Nat),
      (∃ s ∈ proof.siblings, hexDecode s = none) →
      OptimizedSparseMerkleTree.verify_proof H lv proof root idx = false) := by
  refine ⟨?_, ?_, ?_, ?_, ?_, ?_, ?_, ?_⟩
  · intro H leaf proof root idx h
    simp [LmdbMerkleTree.verify_proof, idxFold_malformed H proof.siblings leaf idx h]
  · intro H leaf proof root h
    by_cases hlen : proof.siblings.length = proof.directions.length
    · simp [IncrementalMerkleTree.verify_proof, hlen,
        dirFold_malformed H proof.siblings proof.directions leaf hlen h]
    · simp [IncrementalMerkleTree.verify_proof, hlen]
  · intro H t k v proof root hlen
    simp [SparseMerkleTree.verify_membership, hlen]
  · intro H t k proof root hlen
    simp [SparseMerkleTree.verify_non_membership, hlen]
  · intro H t k v proof root h
    by_cases hlen : proof.siblings.length = t.depth
    · simp [SparseMerkleTree.verify_membership, hlen, smtFold_malformed H proof.siblings _ _ h]
    · simp [SparseMerkleTree.verify_membership, hlen]
  · intro H t k proof root h
    by_cases hlen : proof.siblings.length = t.depth
    · simp [SparseMerkleTree.verify_non_membership, hlen,
        smtFold_malformed H proof.siblings _ _ h]
    · simp [SparseMerkleTree.verify_non_membership, hlen]
  · intro H lv proof root idx hlen
    simp [OptimizedSparseMerkleTree.verify_proof, hlen]
  · intro H lv proof root idx h
    by_cases hidx : idx ≥ MAX_LEAVES_OPT
    · simp [OptimizedSparseMerkleTree.verify_proof, hidx]
    · by_cases hlen : proof.siblings.length = TREE_DEPTH
      · simp [OptimizedSparseMerkleTree.verify_proof, hidx, hlen,
          optFold_malformed H proof.siblings _ _ h]
      · simp [OptimizedSparseMerkleTree.verify_proof, hidx, hlen]

/-- C4 (counterexample): the persistent IMT verifier performs no length check
against the tree: on a one-leaf tree (expected proof length ⌈log₂ 1⌉ = 0) it
accepts a one-sibling proof against a suitably chosen root. -/
theorem C4_imt_accepts_overlong_proof :
    (((LmdbMerkleTree.new LmdbStorage.new).add_leaf keccak [97]).2.num_leaves = 1) ∧
    ({ siblings := [hexEncode [0]] } : LmdbMerkleProof).siblings.length = 1 ∧
    LmdbMerkleTree.verify_proof keccak [97] { siblings := [hexEncode [0]] }
      (hash_pair keccak [97] [0]) 0 = true := by
  refine ⟨rfl, rfl, by decide⟩

/-- C4 (witness): the lmdb verifier concretely rejects the sibling list
`["zz"]`. -/
theorem C4_verifiers_reject_witness :
    LmdbMerkleTree.verify_proof keccak [97] { siblings := [['z', 'z']] } [0] 0 = false :=
  C4_verifiers_reject_malformed_and_length.1 keccak [97] { siblings := [['z', 'z']] } [0] 0
    ⟨['z', 'z'], by simp, by decide⟩

/-! ## Pyramid structure lemmas -/

/-- Each promotion halves the element count, rounding up. -/
theorem nextLevel_length (H : List Nat → List Nat) :
    ∀ l : List (List Nat), (nextLevel H l).length = (l.length + 1) / 2
  | [] => by simp [nextLevel]
  | [_] => by simp [nextLevel]
  | _ :: _ :: rest => by
    simp only [nextLevel, List.length_cons, nextLevel_length H rest]
    omega

/-- With `lvl.length ≤ 2 ^ fuel` promotions, the build never hits the depth
bound. -/
theorem buildLevelsP_complete (H : List Nat → List Nat) :
    ∀ (fuel : Nat) (lvl : List (List Nat)), lvl.length ≤ 2 ^ fuel →
      (buildLevelsP H fuel lvl).1 = true := by
  intro fuel
  induction fuel with
  | zero =>
    intro lvl hl
    simp only [pow_zero] at hl
    simp [buildLevelsP, hl]
  | succ fuel ih =>
    intro lvl hl
    by_cases h1 : lvl.length ≤ 1
    · simp [buildLevelsP, h1]
    · have hnext : (nextLevel H lvl).length ≤ 2 ^ fuel := by
        rw [nextLevel_length]
        have : (2 : Nat) ^ (fuel + 1) = 2 * 2 ^ fuel := by ring
        omega
      simp only [buildLevelsP, h1, if_false]
      exact ih (nextLevel H lvl) hnext

/-- The built level list is never empty. -/
theorem buildLevelsP_ne_nil (H : List Nat → List Nat) (fuel : Nat)
    (lvl : List (List Nat)) : (buildLevelsP H fuel lvl).2 ≠ [] := by
  cases fuel <;> by_cases h1 : lvl.length ≤ 1 <;> simp [buildLevelsP, h1]

/-- The first level of the build is the input level. -/
theorem buildLevelsP_head (H : List Nat → List Nat) (fuel : Nat)
    (lvl : List (List Nat)) : ∃ rest, (buildLevelsP H fuel lvl).2 = lvl :: rest := by
  cases fuel <;> by_cases h1 : lvl.length ≤ 1 <;>
    simp [buildLevelsP, h1]

/-- The root entry ignores a prepended level when more levels follow. -/
theorem lastRootOf_cons (lvl : List (List Nat)) (rest : List (List (List Nat)))
    (h : rest ≠ []) : lastRootOf (lvl :: rest) = lastRootOf rest := by
  cases rest with
  | nil => exact absurd rfl h
  | cons r rs => simp [lastRootOf, List.getLast?_cons_cons]

/-- On more than one element, the build is one promotion followed by the rest
of the build. -/
theorem buildLevelsP_step (H : List Nat → List Nat) (fuel : Nat)
    (lvl : List (List Nat)) (h : ¬ lvl.length ≤ 1) :
    buildLevelsP H (fuel + 1) lvl =
      ((buildLevelsP H fuel (nextLevel H lvl)).1,
        lvl :: (buildLevelsP H fuel (nextLevel H lvl)).2) := by
  simp [buildLevelsP, h]

/-- C10: a one-leaf incremental tree returns the leaf bytes themselves as its
root — level 0 of the pyramid is the raw leaf list, so no hash is applied —
for the in-memory tree and the persistent tree alike, and for any hash
function, since none is invoked. -/
theorem C10_single_leaf_root_is_leaf (H : List Nat → List Nat) (leaf : List Nat) :
    ((IncrementalMerkleTree.new.add_leaf leaf).2.root H).1 = some leaf ∧
    ((LmdbMerkleTree.new LmdbStorage.new).add_leaf H leaf).2.root = some leaf :=
  ⟨rfl, rfl⟩

/-- C7 (counterexample): the odd-size duplication rule does not extend to a
level of size 1 (the root level): a single-leaf tree has root `"a"`, while
duplicating that level's element gives `Keccak256("a" ‖ "a")`. -/
theorem C7_size_one_level_counterexample :
    ((IncrementalMerkleTree.new.add_leaves [[97]]).2.root keccak).1 = some [97] ∧
    ((IncrementalMerkleTree.new.add_leaves [[97], [97]]).2.root keccak).1 =
      some (hash_pair keccak [97] [97]) ∧
    some ([97] : List Nat) ≠ some (hash_pair keccak [97] [97]) :=
  ⟨rfl, rfl, by decide⟩

/-- Appending a copy of the last element to an odd level does not change its
promotion. -/
theorem nextLevel_dup (H : List Nat → List Nat) :
    ∀ (l : List (List Nat)) (h : l ≠ []), l.length % 2 = 1 →
      nextLevel H (l ++ [l.getLast h]) = nextLevel H l
  | [], h, _ => absurd rfl h
  | [a], _, _ => rfl
  | a :: b :: rest, _, hodd => by
    have hrest : rest ≠ [] := by
      intro hnil
      rw [hnil] at hodd
      simp at hodd
    have hrodd : rest.length % 2 = 1 := by
      simp only [List.length_cons] at hodd
      omega
    have hlast : (a :: b :: rest).getLast (by simp) = rest.getLast hrest := by
      rw [List.getLast_cons (by simp), List.getLast_cons hrest]
    rw [hlast]
    show nextLevel H (a :: b :: (rest ++ [rest.getLast hrest])) = nextLevel H (a :: b :: rest)
    simp only [nextLevel]
    rw [nextLevel_dup H rest hrest hrodd]

/-- `add_leaves` on a fresh in-memory tree within capacity: the canonical
post-mutation state. -/
theorem add_leaves_new (L : List (List Nat)) (hcap : L.length ≤ MAX_LEAVES_MEM) :
    (IncrementalMerkleTree.new.add_leaves L).2 =
      ⟨L, [], none, false⟩ := by
  have h2 : ¬ MAX_LEAVES_MEM < L.length := by omega
  simp [IncrementalMerkleTree.add_leaves, IncrementalMerkleTree.invalidate_cache,
    IncrementalMerkleTree.new, h2]

/-- `root()` on a tree whose cache was just invalidated returns the root entry
of the freshly built pyramid. -/
theorem imt_root_eq (H : List Nat → List Nat) (L : List (List Nat)) (hne : L ≠ [])
    (hcap : L.length ≤ 2 ^ 64) :
    ((⟨L, [], none, false⟩ : IncrementalMerkleTree).root H).1 =
      lastRootOf (buildLevelsP H 64 L).2 := by
  have hok := buildLevelsP_complete H 64 L hcap
  have hempty : L.isEmpty = false := by
    cases L with
    | nil => exact absurd rfl hne
    | cons a l => rfl
  unfold IncrementalMerkleTree.root IncrementalMerkleTree.compute_tree
  simp only [hempty, Bool.false_eq_true, if_false, Bool.false_and, hok, if_true]
  cases hlast : lastRootOf (buildLevelsP H 64 L).2 with
  | none => simp [hlast]
  | some rt => simp [hlast]

/-- C7 (amended): an odd-sized level that is actually promoted (size ≥ 2, and
being odd therefore ≥ 3) promotes identically to the level with its last
element duplicated, and consequently an odd leaf list of size ≥ 2 yields the
same root as the one extended by a copy of its last leaf.  (For the size-1
root level the padded tree hashes once more — see the counterexample.) -/
theorem C7_odd_duplication_amended :
    (∀ (H : List Nat → List Nat) (l : List (List Nat)) (h : l ≠ []),
      l.length % 2 = 1 → nextLevel H (l ++ [l.getLast h]) = nextLevel H l) ∧
    (∀ (H : List Nat → List Nat) (L : List (List Nat)) (h2 : 2 ≤ L.length),
      L.length % 2 = 1 → L.length + 1 ≤ MAX_LEAVES_MEM →
      ((IncrementalMerkleTree.new.add_leaves L).2.root H).1 =
        ((IncrementalMerkleTree.new.add_leaves
          (L ++ [L.getLast (List.ne_nil_of_length_pos (by omega))])).2.root H).1) := by
  constructor
  · exact nextLevel_dup
  · intro H L h2 hodd hcap
    have hne : L ≠ [] := List.ne_nil_of_length_pos (by omega)
    have hne' : L ++ [L.getLast hne] ≠ [] := by simp
    have hM : MAX_LEAVES_MEM = 2048 := rfl
    have hp : (2 : Nat) ^ 64 = 18446744073709551616 := by norm_num
    have hlen' : (L ++ [L.getLast hne]).length = L.length + 1 := by simp
    rw [add_leaves_new L (by omega), add_leaves_new _ (by omega)]
    rw [imt_root_eq H L hne (by omega), imt_root_eq H _ hne' (by omega)]
    have hL1 : ¬ L.length ≤ 1 := by omega
    have hL1' : ¬ (L ++ [L.getLast hne]).length ≤ 1 := by omega
    rw [show (64 : Nat) = 63 + 1 from rfl, buildLevelsP_step H 63 L hL1,
      buildLevelsP_step H 63 _ hL1']
    rw [nextLevel_dup H L hne hodd]
    rw [lastRootOf_cons _ _ (buildLevelsP_ne_nil H 63 _),
      lastRootOf_cons _ _ (buildLevelsP_ne_nil H 63 _)]

/-- C7 (witness): the duplication equality at the concrete odd leaf list
`["a", "b", "c"]`. -/
theorem C7_odd_duplication_witness :
    ((IncrementalMerkleTree.new.add_leaves [[97], [98], [99]]).2.root keccak).1 =
      ((IncrementalMerkleTree.new.add_leaves
        [[97], [98], [99], [99]]).2.root keccak).1 := by
  have h := C7_odd_duplication_amended.2 keccak [[97], [98], [99]]
    (by decide) (by decide) (by decide)
  simpa using h

/-! ## Write-transaction sequences (claim C3)

Each `LmdbStorage` write method commits one LMDB transaction.  A public
mutation is the sequence of transactions it commits, in order; a mutation
that fails mid-way leaves exactly the transactions committed so far applied.
-/

/-- Apply a sequence of committed write transactions. -/
def applyTxns (txns : List (LmdbStorage → LmdbStorage)) (s : LmdbStorage) : LmdbStorage :=
  txns.foldl (fun st f => f st) s

/-- The write transactions `LmdbMerkleTree::add_leaf` commits (success path,
nonempty leaves): the leaf `put`, then — inside
`recompute_and_store_tree` — the cache batch, the root, and the metadata,
each its own transaction. -/
def lmdb_add_leaf_txns (H : List Nat → List Nat) (t : LmdbMerkleTree)
    (leaf : List Nat) : List (LmdbStorage → LmdbStorage) :=
  [fun s => s.store_leaf t.num_leaves leaf,
   fun s => s.store_cache_batch (buildLevelsP H MAX_LEVELS s.get_all_leaves).2,
   fun s =>
     match lastRootOf (buildLevelsP H MAX_LEVELS s.get_all_leaves).2 with
     | some rt => s.store_root rt
     | none => s,
   fun s => s.store_metadata ⟨s.get_all_leaves.length, t.max_leaves⟩]

/-- The write transactions `SparseMerkleTree::insert` commits: the one
`store_path_batch` (all sibling reads precede it, against `t.storage`). -/
def smt_insert_txns (H : List Nat → List Nat) (t : SparseMerkleTree)
    (key value : List Nat) : List (LmdbStorage → LmdbStorage) :=
  [fun s =>
    s.store_path_batch
      ((0, leaf_index_from_key_hash t.depth (smtKeccak H key),
          hash_leaf H (smtKeccak H key) value) ::
        insertLoop H t.storage 0 t.depth
          (leaf_index_from_key_hash t.depth (smtKeccak H key))
          (hash_leaf H (smtKeccak H key) value))]

/-- The single SMT transaction applied to the tree's own store is exactly
`insert`. -/
theorem smt_insert_txns_apply (H : List Nat → List Nat) (t : SparseMerkleTree)
    (key value : List Nat) :
    applyTxns (smt_insert_txns H t key value) t.storage = (t.insert H key value).storage :=
  rfl

/-- C3 (amended): the sparse-tree `insert` persists through exactly one write
transaction — a failure before that commit leaves the store untouched —
while the persistent IMT `add_leaf` commits four transactions, the leaf in
its own one before the recompute (see the counterexample for the resulting
partial state). -/
theorem C3_atomicity_amended :
    (∀ (H : List Nat → List Nat) (t : SparseMerkleTree) (key value : List Nat)
        (j : Nat), j < (smt_insert_txns H t key value).length →
      applyTxns ((smt_insert_txns H t key value).take j) t.storage = t.storage) ∧
    (∀ (H : List Nat → List Nat) (t : SparseMerkleTree) (key value : List Nat),
      (smt_insert_txns H t key value).length = 1 ∧
      applyTxns (smt_insert_txns H t key value) t.storage =
        (t.insert H key value).storage) ∧
    (∀ (H : List Nat → List Nat) (t : LmdbMerkleTree) (leaf : List Nat),
      (lmdb_add_leaf_txns H t leaf).length = 4) := by
  refine ⟨?_, ?_, ?_⟩
  · intro H t key value j hj
    simp only [smt_insert_txns, List.length_cons, List.length_nil] at hj
    interval_cases j
    rfl
  · intro H t key value
    exact ⟨rfl, rfl⟩
  · intro H t leaf
    rfl

/-- C3 (counterexample): `add_leaf` on the persistent IMT commits the leaf
write in its own transaction; failing right after it leaves a store that
differs from the pre-mutation store (the leaf is already on disk). -/
theorem C3_lmdb_partial_commit_counterexample :
    applyTxns ((lmdb_add_leaf_txns keccak (LmdbMerkleTree.new LmdbStorage.new) [0]).take 1)
        LmdbStorage.new ≠ LmdbStorage.new ∧
    (applyTxns ((lmdb_add_leaf_txns keccak (LmdbMerkleTree.new LmdbStorage.new) [0]).take 1)
        LmdbStorage.new).leaves = [[0]] := by
  constructor
  · decide
  · rfl

/-- C3 (witness): no transaction of the SMT batch committed — store
unchanged, concretely at depth 4. -/
theorem C3_atomicity_witness :
    applyTxns ((smt_insert_txns keccak (SparseMerkleTree.new LmdbStorage.new 4) [1] [2]).take 0)
        (SparseMerkleTree.new LmdbStorage.new 4).storage =
      (SparseMerkleTree.new LmdbStorage.new 4).storage :=
  C3_atomicity_amended.1 keccak (SparseMerkleTree.new LmdbStorage.new 4) [1] [2] 0
    (by decide)

@[simp]
theorem get_all_leaves_store_cache_batch (s : LmdbStorage) (L : List (List (List Nat))) :
    (s.store_cache_batch L).get_all_leaves = s.get_all_leaves := rfl

@[simp]
theorem get_all_leaves_store_root (s : LmdbStorage) (r : List Nat) :
    (s.store_root r).get_all_leaves = s.get_all_leaves := rfl

/-- `store_leaf` never leaves the leaf space empty. -/
theorem store_leaf_ne_empty (s : LmdbStorage) (index : Nat) (leaf : List Nat) :
    ((s.store_leaf index leaf).get_all_leaves).isEmpty = false := by
  unfold LmdbStorage.store_leaf LmdbStorage.get_all_leaves
  by_cases h : index < s.leaves.length
  · simp only [h, if_true]
    cases hl : s.leaves with
    | nil => rw [hl] at h; simp at h
    | cons a l => simp [hl]
  · simp only [h, if_false]
    cases hl : s.leaves with
    | nil => simp
    | cons a l => simp

/-- The four `add_leaf` transactions applied in order are exactly the
mutation's effect on the store (success path). -/
theorem lmdb_add_leaf_txns_apply (H : List Nat → List Nat) (t : LmdbMerkleTree)
    (leaf : List Nat) (hcap : ¬ t.num_leaves ≥ t.max_leaves)
    (hok : (buildLevelsP H MAX_LEVELS
      ((t.storage.store_leaf t.num_leaves leaf).get_all_leaves)).1 = true) :
    applyTxns (lmdb_add_leaf_txns H t leaf) t.storage = ((t.add_leaf H leaf).2).storage := by
  have hne := store_leaf_ne_empty t.storage t.num_leaves leaf
  simp only [applyTxns, lmdb_add_leaf_txns, List.foldl_cons, List.foldl_nil,
    LmdbMerkleTree.add_leaf, LmdbMerkleTree.recompute_and_store_tree, hcap, if_false,
    get_all_leaves_store_cache_batch, get_all_leaves_store_root, hne,
    Bool.false_eq_true, hok, if_true]
  cases hlast : lastRootOf
      (buildLevelsP H MAX_LEVELS ((t.storage.store_leaf t.num_leaves leaf).get_all_leaves)).2 with
  | none => simp [hlast, LmdbStorage.sync]
  | some rt => simp [hlast, LmdbStorage.sync]

/-- `append_leaves` starting at the current count appends the batch in order. -/
theorem append_leaves_eq :
    ∀ (ls : List (List Nat)) (s : LmdbStorage) (start : Nat),
      start = s.leaves.length →
      s.append_leaves start ls = { s with leaves := s.leaves ++ ls }
  | [], s, start, h => by simp [LmdbStorage.append_leaves]
  | l :: ls, s, start, h => by
    have hidx : ¬ start < s.leaves.length := by omega
    have hstep : s.store_leaf start l = { s with leaves := s.leaves ++ [l] } := by
      simp [LmdbStorage.store_leaf, hidx]
    rw [LmdbStorage.append_leaves, hstep,
      append_leaves_eq ls _ (start + 1) (by simp [h])]
    simp

/-- `1 <<< n = 2 ^ n`. -/
theorem one_shiftLeft_eq (n : Nat) : (1 <<< n : Nat) = 2 ^ n := by
  simp [Nat.shiftLeft_eq]

/-- C6: capacity checks.  In-memory: `add_leaf` / `add_leaves` fail with the
capacity error exactly when the resulting count would exceed `MAX_LEAVES`
(2^11), leaving the tree unchanged.  Persistent: with the default ceiling
2^32 and consistent metadata, the same holds against `max_leaves`, and a
failed mutation performs no store write. -/
theorem C6_capacity :
    (∀ (t : IncrementalMerkleTree) (leaf : List Nat),
      (((t.add_leaf leaf).1 = .error "Exceeded max number of leaves in merkle tree") ↔
        t.num_leaves + 1 > MAX_LEAVES_MEM) ∧
      (t.num_leaves + 1 > MAX_LEAVES_MEM → (t.add_leaf leaf).2 = t)) ∧
    (∀ (t : IncrementalMerkleTree) (ls : List (List Nat)),
      (((t.add_leaves ls).1 = .error "Exceeded max number of leaves in merkle tree") ↔
        t.num_leaves + ls.length > MAX_LEAVES_MEM) ∧
      (t.num_leaves + ls.length > MAX_LEAVES_MEM → (t.add_leaves ls).2 = t)) ∧
    (∀ (H : List Nat → List Nat) (t : LmdbMerkleTree) (leaf : List Nat),
      t.max_leaves = MAX_LEAVES_LMDB →
      t.storage.metadata = some ⟨t.storage.leaves.length, t.max_leaves⟩ →
      (((t.add_leaf H leaf).1 = .error "Exceeded max number of leaves in merkle tree") ↔
        t.num_leaves + 1 > t.max_leaves) ∧
      (t.num_leaves + 1 > t.max_leaves → (t.add_leaf H leaf).2 = t)) ∧
    (∀ (H : List Nat → List Nat) (t : LmdbMerkleTree) (ls : List (List Nat)),
      t.max_leaves = MAX_LEAVES_LMDB →
      t.storage.metadata = some ⟨t.storage.leaves.length, t.max_leaves⟩ →
      (((t.add_leaves H ls).1 = .error "Exceeded max number of leaves in merkle tree") ↔
        t.num_leaves + ls.length > t.max_leaves) ∧
      (t.num_leaves + ls.length > t.max_leaves → (t.add_leaves H ls).2 = t)) := by
  refine ⟨?_, ?_, ?_, ?_⟩
  · intro t leaf
    by_cases h : t.leaves.length ≥ MAX_LEAVES_MEM <;>
      simp [IncrementalMerkleTree.add_leaf, IncrementalMerkleTree.num_leaves, h] <;>
      omega
  · intro t ls
    by_cases h : t.leaves.length + ls.length > MAX_LEAVES_MEM <;>
      simp [IncrementalMerkleTree.add_leaves, IncrementalMerkleTree.num_leaves, h]
  · intro H t leaf hmax hmeta
    have hnum : t.num_leaves = t.storage.leaves.length := by
      simp [LmdbMerkleTree.num_leaves, LmdbStorage.get_metadata, hmeta]
    by_cases hcap : t.num_leaves ≥ t.max_leaves
    · have h1 : t.add_leaf H leaf =
          (.error "Exceeded max number of leaves in merkle tree", t) := by
        simp [LmdbMerkleTree.add_leaf, hcap]
      rw [h1]
      exact ⟨⟨fun _ => by omega, fun _ => rfl⟩, fun _ => rfl⟩
    · have hML : (2 : Nat) ^ MAX_LEVELS = 4294967296 := by norm_num [MAX_LEVELS]
      have hMB : MAX_LEAVES_LMDB = 4294967296 := by
        norm_num [MAX_LEAVES_LMDB, MAX_LEVELS, Nat.shiftLeft_eq]
      have hlen : ((t.storage.store_leaf t.num_leaves leaf).get_all_leaves).length =
          t.storage.leaves.length + 1 := by
        rw [hnum]
        simp [LmdbStorage.store_leaf, LmdbStorage.get_all_leaves]
      have hok : (buildLevelsP H MAX_LEVELS
          ((t.storage.store_leaf t.num_leaves leaf).get_all_leaves)).1 = true := by
        apply buildLevelsP_complete
        rw [hlen, hML]
        omega
      have hne := store_leaf_ne_empty t.storage t.num_leaves leaf
      have hres : (t.add_leaf H leaf).1 = .ok () := by
        simp [LmdbMerkleTree.add_leaf, hcap, LmdbMerkleTree.recompute_and_store_tree,
          hne, hok]
      refine ⟨?_, fun hbad => absurd (by omega : t.num_leaves ≥ t.max_leaves) hcap⟩
      rw [hres]
      exact ⟨fun hbad => by simp at hbad,
        fun hbad => absurd (by omega : t.num_leaves ≥ t.max_leaves) hcap⟩
  · intro H t ls hmax hmeta
    have hnum : t.num_leaves = t.storage.leaves.length := by
      simp [LmdbMerkleTree.num_leaves, LmdbStorage.get_metadata, hmeta]
    by_cases hcap : t.num_leaves + ls.length > t.max_leaves
    · have h1 : t.add_leaves H ls =
          (.error "Exceeded max number of leaves in merkle tree", t) := by
        simp [LmdbMerkleTree.add_leaves, hcap]
      rw [h1]
      exact ⟨⟨fun _ => hcap, fun _ => rfl⟩, fun _ => rfl⟩
    · have hML : (2 : Nat) ^ MAX_LEVELS = 4294967296 := by norm_num [MAX_LEVELS]
      have hMB : MAX_LEAVES_LMDB = 4294967296 := by
        norm_num [MAX_LEAVES_LMDB, MAX_LEVELS, Nat.shiftLeft_eq]
      have happ : t.storage.append_leaves t.num_leaves ls =
          { t.storage with leaves := t.storage.leaves ++ ls } := by
        rw [hnum]
        exact append_leaves_eq ls t.storage _ rfl
      have hok : (buildLevelsP H MAX_LEVELS
          ((t.storage.append_leaves t.num_leaves ls).get_all_leaves)).1 = true := by
        apply buildLevelsP_complete
        rw [happ]
        simp only [LmdbStorage.get_all_leaves, List.length_append]
        rw [hML]
        omega
      have hres : (t.add_leaves H ls).1 = .ok () := by
        cases hemp : ((t.storage.append_leaves t.num_leaves ls).get_all_leaves).isEmpty
        · simp [LmdbMerkleTree.add_leaves, hcap, LmdbMerkleTree.recompute_and_store_tree,
            hemp, hok]
        · simp [LmdbMerkleTree.add_leaves, hcap, LmdbMerkleTree.recompute_and_store_tree,
            hemp]
      refine ⟨?_, fun hbad => absurd hbad hcap⟩
      rw [hres]
      exact ⟨fun hbad => by simp at hbad, fun hbad => absurd hbad hcap⟩

/-- A persistent tree sitting exactly at the default 2^32 ceiling. -/
def c6FullTree : LmdbMerkleTree :=
  { storage :=
      { leaves := List.replicate MAX_LEAVES_LMDB [0]
        cache_levels := []
        nodes := []
        metadata := some ⟨MAX_LEAVES_LMDB, MAX_LEAVES_LMDB⟩
        cached_root := none }
    max_leaves := MAX_LEAVES_LMDB }

/-- C6 (witness): the full tree rejects a further `add_leaf` and is returned
unchanged. -/
theorem C6_capacity_witness :
    ((c6FullTree.add_leaf keccak [1]).1 =
      .error "Exceeded max number of leaves in merkle tree") ∧
    (c6FullTree.add_leaf keccak [1]).2 = c6FullTree := by
  have h := C6_capacity.2.2.1 keccak c6FullTree [1] rfl (by simp [c6FullTree])
  have hnum : c6FullTree.num_leaves = MAX_LEAVES_LMDB := rfl
  have hmaxx : c6FullTree.max_leaves = MAX_LEAVES_LMDB := rfl
  exact ⟨h.1.mpr (by omega), h.2 (by omega)⟩

/-! ## Sparse-tree path machinery (claims C2, C5, C8, C9) -/

/-- Combine a node with its sibling, sides chosen by the node's low bit. -/
def combineSide (H : List Nat → List Nat) (i : Nat) (a b : List Nat) : List Nat :=
  if i % 2 = 0 then hash_internal H a b else hash_internal H b a

/-- The sibling value `insert` reads at level `l` of the path of `idx0`
(in store `s`, defaulting to the per-level empty). -/
def smtSib (H : List Nat → List Nat) (s : LmdbStorage) (idx0 l : Nat) : List Nat :=
  (s.get_node l ((idx0 / 2 ^ l) ^^^ 1)).getD (emptyHash H l)

/-- The hash `insert` writes at level `l` of the path of `idx0`, starting
from `leaf` at level 0. -/
def smtW (H : List Nat → List Nat) (s : LmdbStorage) (idx0 : Nat) (leaf : List Nat) :
    Nat → List Nat
  | 0 => leaf
  | l + 1 => combineSide H (idx0 / 2 ^ l) (smtW H s idx0 leaf l) (smtSib H s idx0 l)

/-- `get_node` after `store_node` is a point update. -/
theorem get_node_store_node (s : LmdbStorage) (a b l i : Nat) (h : List Nat) :
    (s.store_node a b h).get_node l i =
      if a = l ∧ b = i then some h else s.get_node l i := by
  unfold LmdbStorage.store_node LmdbStorage.get_node
  by_cases hk : a = l ∧ b = i
  · obtain ⟨rfl, rfl⟩ := hk
    simp [List.find?_cons]
  · have : (((a, b), h).1 == (l, i)) = false := by
      simp only [beq_eq_false_iff_ne, ne_eq, Prod.mk.injEq]
      exact fun hc => hk ⟨hc.1, hc.2⟩
    simp [List.find?_cons, this, hk]

/-- A key no batch entry writes is untouched by `store_path_batch`. -/
theorem spb_get_not_key :
    ∀ (ups : List (Nat × Nat × List Nat)) (s : LmdbStorage) (l i : Nat),
      (∀ u ∈ ups, ¬ (u.1 = l ∧ u.2.1 = i)) →
      (s.store_path_batch ups).get_node l i = s.get_node l i
  | [], _, _, _, _ => rfl
  | (a, b, c) :: rest, s, l, i, h => by
    rw [LmdbStorage.store_path_batch,
      spb_get_not_key rest _ l i (fun u hu => h u (List.mem_cons_of_mem _ hu)),
      get_node_store_node]
    have : ¬ (a = l ∧ b = i) := by
      have := h (a, b, c) (List.mem_cons_self _ _)
      simpa using this
    simp [this]

/-- A key only one batch entry value is ever written to reads back that
value. -/
theorem spb_get_mem :
    ∀ (ups : List (Nat × Nat × List Nat)) (s : LmdbStorage) (l i : Nat) (v : List Nat),
      (l, i, v) ∈ ups → (∀ u ∈ ups, u.1 = l → u.2.1 = i → u.2.2 = v) →
      (s.store_path_batch ups).get_node l i = some v
  | [], _, _, _, _, hm, _ => absurd hm (by simp)
  | (a, b, c) :: rest, s, l, i, v, hm, huniq => by
    by_cases hrest : ∃ u ∈ rest, u.1 = l ∧ u.2.1 = i
    · obtain ⟨u, hu, hul, hui⟩ := hrest
      have huv : u.2.2 = v := huniq u (List.mem_cons_of_mem _ hu) hul hui
      have hu' : (l, i, v) ∈ rest := by
        have : u = (l, i, v) := by
          obtain ⟨u1, u2, u3⟩ := u
          simp only at hul hui huv
          rw [hul, hui, huv]
        rw [← this]
        exact hu
      rw [LmdbStorage.store_path_batch]
      exact spb_get_mem rest _ l i v hu'
        (fun u hu2 => huniq u (List.mem_cons_of_mem _ hu2))
    · have hm' : (a, b, c) = (l, i, v) := by
        rcases List.mem_cons.mp hm with he | hr
        · exact he.symm
        · exact absurd ⟨(l, i, v), hr, rfl, rfl⟩ hrest
      rw [LmdbStorage.store_path_batch,
        spb_get_not_key rest _ l i (fun u hu => by
          intro hc
          exact hrest ⟨u, hu, hc⟩),
        get_node_store_node]
      have ha : a = l ∧ b = i := by
        have h1 := congrArg Prod.fst hm'
        have h2 := congrArg (fun p => p.2.1) hm'
        simp at h1 h2
        exact ⟨h1, h2⟩
      have hc : c = v := by
        have h3 := congrArg (fun p => p.2.2) hm'
        simpa using h3
      simp [ha, hc]

/-- The `insert` walk starting at level `level` of the path of `idx0`
produces exactly the parent writes `(level + j + 1, path index, smtW)`. -/
theorem insertLoop_eq (H : List Nat → List Nat) (s : LmdbStorage) (idx0 : Nat)
    (leaf : List Nat) :
    ∀ (fuel level : Nat),
      insertLoop H s level fuel (idx0 / 2 ^ level) (smtW H s idx0 leaf level) =
        (List.range fuel).map
          (fun j => (level + j + 1, idx0 / 2 ^ (level + j + 1),
            smtW H s idx0 leaf (level + j + 1)))
  | 0, level => by simp [insertLoop]
  | fuel + 1, level => by
    rw [insertLoop]
    have hsib : (s.get_node level ((idx0 / 2 ^ level) ^^^ 1)).getD (emptyHash H level) =
        smtSib H s idx0 level := rfl
    have hpar :
        (if (idx0 / 2 ^ level) % 2 = 0 then
          hash_internal H (smtW H s idx0 leaf level) (smtSib H s idx0 level)
        else
          hash_internal H (smtSib H s idx0 level) (smtW H s idx0 leaf level)) =
        smtW H s idx0 leaf (level + 1) := rfl
    have hmaps : (List.range fuel).map
          ((fun j => (level + j + 1, idx0 / 2 ^ (level + j + 1),
            smtW H s idx0 leaf (level + j + 1))) ∘ Nat.succ) =
        (List.range fuel).map
          (fun j => (level + 1 + j + 1, idx0 / 2 ^ (level + 1 + j + 1),
            smtW H s idx0 leaf (level + 1 + j + 1))) := by
      apply List.map_congr_left
      intro j hj
      simp only [Function.comp, Nat.succ_eq_add_one]
      have he : level + (j + 1) = level + 1 + j := by omega
      rw [he]
    rw [hsib, hpar, div_pow_succ, insertLoop_eq H s idx0 leaf fuel (level + 1),
      List.range_succ_eq_map, List.map_cons, List.map_map, hmaps]

/-- The `get_proof` walk reads the sibling chain of `idx0` from the store. -/
theorem proofLoop_eq (H : List Nat → List Nat) (s : LmdbStorage) (idx0 : Nat) :
    ∀ (fuel level : Nat),
      proofLoop H s level fuel (idx0 / 2 ^ level) =
        (List.range fuel).map (fun j => hexEncode (smtSib H s idx0 (level + j)))
  | 0, level => by simp [proofLoop]
  | fuel + 1, level => by
    have hmaps : (List.range fuel).map
          ((fun j => hexEncode (smtSib H s idx0 (level + j))) ∘ Nat.succ) =
        (List.range fuel).map
          (fun j => hexEncode (smtSib H s idx0 (level + 1 + j))) := by
      apply List.map_congr_left
      intro j hj
      simp only [Function.comp, Nat.succ_eq_add_one]
      have he : level + (j + 1) = level + 1 + j := by omega
      rw [he]
    have hsib : (s.get_node level ((idx0 / 2 ^ level) ^^^ 1)).getD (emptyHash H level) =
        smtSib H s idx0 level := rfl
    rw [proofLoop, hsib, div_pow_succ, proofLoop_eq H s idx0 fuel (level + 1),
      List.range_succ_eq_map, List.map_cons, List.map_map, hmaps]
    simp only [Nat.add_zero]

/-- The leaf position derived from a key hash fits in `depth` bits. -/
theorem leaf_index_lt (depth : Nat) (kh : List Nat) :
    leaf_index_from_key_hash depth kh < 2 ^ depth := by
  unfold leaf_index_from_key_hash
  induction depth with
  | zero => simp
  | succ d ih =>
    rw [List.range_succ, List.foldl_append, List.foldl_cons, List.foldl_nil]
    have hb : bit_at kh d ≤ 1 := by
      unfold bit_at
      exact Nat.and_le_right
    have h2 : (2 : Nat) ^ (d + 1) = 2 * 2 ^ d := by ring
    omega

/-- Folding the verifier up a chain of siblings `g` whose parents follow the
`combineSide` recurrence `w` lands on `w` at the top level. -/
theorem smtFold_steps (H : List Nat → List Nat) (g w : Nat → List Nat) (idx0 : Nat) :
    ∀ (fuel level : Nat),
      (∀ j, j < fuel → IsBytes (g (level + j))) →
      (∀ j, j < fuel →
        w (level + j + 1) =
          combineSide H (idx0 / 2 ^ (level + j)) (w (level + j)) (g (level + j))) →
      smtFold H (w level) (idx0 / 2 ^ level)
          ((List.range fuel).map (fun j => hexEncode (g (level + j)))) =
        some (w (level + fuel))
  | 0, level, _, _ => by simp [smtFold]
  | fuel + 1, level, hbytes, hstep => by
    have hmaps : (List.range fuel).map
          ((fun j => hexEncode (g (level + j))) ∘ Nat.succ) =
        (List.range fuel).map (fun j => hexEncode (g (level + 1 + j))) := by
      apply List.map_congr_left
      intro j hj
      simp only [Function.comp, Nat.succ_eq_add_one]
      have he : level + (j + 1) = level + 1 + j := by omega
      rw [he]
    rw [List.range_succ_eq_map, List.map_cons, List.map_map, hmaps, smtFold]
    simp only [Nat.add_zero, hexDecode_hexEncode _ (by simpa using hbytes 0 (by omega))]
    have hcomb :
        (if (idx0 / 2 ^ level) % 2 = 0 then
          hash_internal H (w level) (g level)
        else
          hash_internal H (g level) (w level)) = w (level + 1) := by
      have := hstep 0 (by omega)
      simp only [Nat.add_zero] at this
      rw [this, combineSide]
    rw [hcomb, div_pow_succ]
    have := smtFold_steps H g w idx0 fuel (level + 1)
      (fun j hj => by
        have := hbytes (j + 1) (by omega)
        simpa [Nat.add_assoc, Nat.add_comm 1 j] using this)
      (fun j hj => by
        have := hstep (j + 1) (by omega)
        have he : level + (j + 1) = level + 1 + j := by omega
        rw [he] at this
        exact this)
    rw [this]
    have he2 : level + 1 + fuel = level + (fuel + 1) := by omega
    rw [he2]

/-- The leaf position `insert(key, _)` writes to. -/
def insIdx (H : List Nat → List Nat) (t : SparseMerkleTree) (key : List Nat) : Nat :=
  leaf_index_from_key_hash t.depth (smtKeccak H key)

/-- The leaf hash `insert(key, value)` writes. -/
def insLeaf (H : List Nat → List Nat) (key value : List Nat) : List Nat :=
  hash_leaf H (smtKeccak H key) value

/-- The whole update batch of one `insert`. -/
def insUpdates (H : List Nat → List Nat) (t : SparseMerkleTree)
    (key value : List Nat) : List (Nat × Nat × List Nat) :=
  (0, insIdx H t key, insLeaf H key value) ::
    insertLoop H t.storage 0 t.depth (insIdx H t key) (insLeaf H key value)

theorem insert_storage_eq (H : List Nat → List Nat) (t : SparseMerkleTree)
    (key value : List Nat) :
    (t.insert H key value).storage = t.storage.store_path_batch (insUpdates H t key value) :=
  rfl

/-- The update batch, as the explicit list of path writes. -/
theorem insUpdates_eq (H : List Nat → List Nat) (t : SparseMerkleTree)
    (key value : List Nat) :
    insUpdates H t key value =
      (0, insIdx H t key, insLeaf H key value) ::
        (List.range t.depth).map
          (fun j => (j + 1, insIdx H t key / 2 ^ (j + 1),
            smtW H t.storage (insIdx H t key) (insLeaf H key value) (j + 1))) := by
  unfold insUpdates
  have hloop := insertLoop_eq H t.storage (insIdx H t key) (insLeaf H key value) t.depth 0
  simp only [pow_zero, Nat.div_one, Nat.zero_add, smtW] at hloop
  rw [hloop]
  rfl

/-- After `insert`, every position on the key's path holds the freshly
computed path hash. -/
theorem insert_get_node_path (H : List Nat → List Nat) (t : SparseMerkleTree)
    (key value : List Nat) (l : Nat) (hl : l ≤ t.depth) :
    ((t.insert H key value).storage).get_node l (insIdx H t key / 2 ^ l) =
      some (smtW H t.storage (insIdx H t key) (insLeaf H key value) l) := by
  rw [insert_storage_eq]
  cases l with
  | zero =>
    apply spb_get_mem
    · rw [insUpdates_eq]
      have h0 : insIdx H t key / 2 ^ 0 = insIdx H t key := by simp
      rw [h0]
      exact List.mem_cons_self _ _
    · intro u hu hul hui
      rw [insUpdates_eq] at hu
      rcases List.mem_cons.mp hu with rfl | humap
      · rfl
      · obtain ⟨j, _, rfl⟩ := List.mem_map.mp humap
        simp at hul
  | succ m =>
    apply spb_get_mem
    · rw [insUpdates_eq]
      apply List.mem_cons_of_mem
      exact List.mem_map.mpr ⟨m, List.mem_range.mpr (by omega), rfl⟩
    · intro u hu hul hui
      rw [insUpdates_eq] at hu
      rcases List.mem_cons.mp hu with rfl | humap
      · simp at hul
      · obtain ⟨j, _, rfl⟩ := List.mem_map.mp humap
        simp only at hul hui ⊢
        have : j = m := by omega
        rw [this]

/-- `insert` writes nothing off the key's path: every other position is
byte-for-byte what it was (claim C9). -/
theorem insert_get_node_off (H : List Nat → List Nat) (t : SparseMerkleTree)
    (key value : List Nat) (l i : Nat)
    (hoff : l ≤ t.depth → i ≠ insIdx H t key / 2 ^ l) :
    ((t.insert H key value).storage).get_node l i = t.storage.get_node l i := by
  rw [insert_storage_eq]
  apply spb_get_not_key
  intro u hu
  rw [insUpdates_eq] at hu
  rcases List.mem_cons.mp hu with rfl | humap
  · rintro ⟨rfl, hui⟩
    have h0 : insIdx H t key / 2 ^ 0 = insIdx H t key := by simp
    exact hoff (by omega) (by rw [h0]; exact hui.symm)
  · obtain ⟨j, hj, rfl⟩ := List.mem_map.mp humap
    rintro ⟨rfl, hui⟩
    have hjd : j + 1 ≤ t.depth := by simp at hj; omega
    exact hoff hjd hui.symm

/-- A sibling value read by the tree is always a byte string. -/
theorem smtSib_isBytes (H : List Nat → List Nat) (hH : ∀ x, IsBytes (H x))
    (s : LmdbStorage) (hbytes : StoreIsBytes s) (idx0 l : Nat) :
    IsBytes (smtSib H s idx0 l) := by
  unfold smtSib
  cases hv : s.get_node l ((idx0 / 2 ^ l) ^^^ 1) with
  | none => simpa using emptyHash_isBytes H hH l
  | some v => simpa using hbytes _ _ _ hv

/-- After `insert`, `get_proof` for the same key returns exactly the sibling
chain the insertion combined with (the insertion wrote none of them). -/
theorem insert_get_proof (H : List Nat → List Nat) (t : SparseMerkleTree)
    (key value : List Nat) :
    ((t.insert H key value).get_proof H key).siblings =
      (List.range t.depth).map
        (fun j => hexEncode (smtSib H t.storage (insIdx H t key) j)) := by
  have hdepth : (t.insert H key value).depth = t.depth := rfl
  have hsame : ∀ j, smtSib H (t.insert H key value).storage (insIdx H t key) j =
      smtSib H t.storage (insIdx H t key) j := by
    intro j
    unfold smtSib
    rw [insert_get_node_off H t key value j _ (fun _ => (xor_one_ne _))]
  unfold SparseMerkleTree.get_proof
  simp only
  have h0 : insIdx H t key = insIdx H t key / 2 ^ 0 := by simp
  have hpl := proofLoop_eq H (t.insert H key value).storage (insIdx H t key) t.depth 0
  simp only [pow_zero, Nat.div_one, Nat.zero_add] at hpl
  show proofLoop H (t.insert H key value).storage 0 (t.insert H key value).depth
      (leaf_index_from_key_hash (t.insert H key value).depth
        (smtKeccak H key)) = _
  rw [hdepth]
  show proofLoop H (t.insert H key value).storage 0 t.depth (insIdx H t key) = _
  rw [hpl]
  apply List.map_congr_left
  intro j _
  rw [hsame]

/-- Round-trip after `insert`, over any hash function with byte output and
any prior store holding byte strings. -/
theorem smt_roundtrip (H : List Nat → List Nat) (hH : ∀ x, IsBytes (H x))
    (t : SparseMerkleTree) (key value : List Nat) (hbytes : StoreIsBytes t.storage) :
    (t.insert H key value).verify_membership H key value
      ((t.insert H key value).get_proof H key)
      ((t.insert H key value).root H) = true := by
  set t' := t.insert H key value with ht'
  have hdepth : t'.depth = t.depth := rfl
  have hlen : (t'.get_proof H key).siblings.length = t'.depth := by
    rw [insert_get_proof, hdepth]
    simp
  have hfold : smtFold H (insLeaf H key value) (insIdx H t key)
      ((t'.get_proof H key).siblings) =
      some (smtW H t.storage (insIdx H t key) (insLeaf H key value) t.depth) := by
    rw [insert_get_proof]
    have := smtFold_steps H (smtSib H t.storage (insIdx H t key))
      (smtW H t.storage (insIdx H t key) (insLeaf H key value)) (insIdx H t key)
      t.depth 0
      (fun j _ => by
        simpa using smtSib_isBytes H hH t.storage hbytes (insIdx H t key) j)
      (fun j _ => by simp [smtW])
    simp only [pow_zero, Nat.div_one, Nat.zero_add] at this
    exact this
  have hroot : t'.root H =
      smtW H t.storage (insIdx H t key) (insLeaf H key value) t.depth := by
    unfold SparseMerkleTree.root
    have hidx : insIdx H t key / 2 ^ t.depth = 0 :=
      Nat.div_eq_of_lt (leaf_index_lt _ _)
    have := insert_get_node_path H t key value t.depth (le_refl _)
    rw [hidx] at this
    rw [show t'.depth = t.depth from rfl, ← ht'] at *
    rw [this]
    rfl
  unfold SparseMerkleTree.verify_membership
  rw [if_neg (by rw [hlen]; exact fun h => h rfl)]
  show (match smtFold H (insLeaf H key value)
      (leaf_index_from_key_hash t'.depth (smtKeccak H key))
      (t'.get_proof H key).siblings with
    | some c => c == t'.root H
    | none => false) = true
  rw [show leaf_index_from_key_hash t'.depth (smtKeccak H key) = insIdx H t key from rfl,
    hfold, hroot]
  simp

/-- C2: for every sparse-tree state (holding byte strings, as every reachable
store does) and every key/value pair, membership verification of the freshly
generated proof against the current root succeeds after `insert`. -/
theorem C2_smt_membership_roundtrip (t : SparseMerkleTree) (key value : List Nat)
    (hbytes : StoreIsBytes t.storage) :
    (t.insert keccak key value).verify_membership keccak key value
      ((t.insert keccak key value).get_proof keccak key)
      ((t.insert keccak key value).root keccak) = true :=
  smt_roundtrip keccak keccak_isBytes t key value hbytes

/-- C2 (witness): the round-trip concretely, inserting `("foo", "bar")` into
a fresh depth-32 tree. -/
theorem C2_smt_membership_roundtrip_witness :
    ((SparseMerkleTree.new LmdbStorage.new 32).insert keccak [102, 111, 111]
        [98, 97, 114]).verify_membership keccak [102, 111, 111] [98, 97, 114]
      (((SparseMerkleTree.new LmdbStorage.new 32).insert keccak [102, 111, 111]
        [98, 97, 114]).get_proof keccak [102, 111, 111])
      (((SparseMerkleTree.new LmdbStorage.new 32).insert keccak [102, 111, 111]
        [98, 97, 114]).root keccak) = true :=
  C2_smt_membership_roundtrip (SparseMerkleTree.new LmdbStorage.new 32)
    [102, 111, 111] [98, 97, 114] (fun l i v hv => by simp [SparseMerkleTree.new,
      LmdbStorage.new, LmdbStorage.get_node] at hv)

/-- C9: one `insert(key, value)` writes exactly the `depth + 1` positions on
the key's leaf-to-root path — every position on the path now holds the fresh
path hash, and every other `(level, index)` reads back exactly as before. -/
theorem C9_insert_writes_only_path (t : SparseMerkleTree) (key value : List Nat) :
    (∀ l, l ≤ t.depth →
      ((t.insert keccak key value).storage).get_node l (insIdx keccak t key / 2 ^ l) =
        some (smtW keccak t.storage (insIdx keccak t key) (insLeaf keccak key value) l)) ∧
    (∀ l i, (l ≤ t.depth → i ≠ insIdx keccak t key / 2 ^ l) →
      ((t.insert keccak key value).storage).get_node l i = t.storage.get_node l i) :=
  ⟨fun l hl => insert_get_node_path keccak t key value l hl,
   fun l i hoff => insert_get_node_off keccak t key value l i hoff⟩

/-- C9 (witness): concretely, at depth 2 the sibling of the written leaf slot
is untouched by the insertion. -/
theorem C9_insert_frame_witness :
    ((SparseMerkleTree.new LmdbStorage.new 2).insert keccak [5] [7]).storage.get_node 0
        ((insIdx keccak (SparseMerkleTree.new LmdbStorage.new 2) [5]) ^^^ 1) =
      (SparseMerkleTree.new LmdbStorage.new 2).storage.get_node 0
        ((insIdx keccak (SparseMerkleTree.new LmdbStorage.new 2) [5]) ^^^ 1) :=
  (C9_insert_writes_only_path (SparseMerkleTree.new LmdbStorage.new 2) [5] [7]).2 0 _
    (fun _ => by simpa using xor_one_ne (insIdx keccak (SparseMerkleTree.new LmdbStorage.new 2) [5]))

/-! ## States reachable by insertions (claims C5, C8) -/

/-- Apply a sequence of `insert`s. -/
def insertSeq (H : List Nat → List Nat) (t : SparseMerkleTree) :
    List (List Nat × List Nat) → SparseMerkleTree
  | [] => t
  | (k, v) :: ops => insertSeq H (t.insert H k v) ops

theorem insertSeq_depth (H : List Nat → List Nat) :
    ∀ (ops : List (List Nat × List Nat)) (t : SparseMerkleTree),
      (insertSeq H t ops).depth = t.depth
  | [], _ => rfl
  | (k, v) :: ops, t => insertSeq_depth H ops (t.insert H k v)

/-- A position off every inserted key's path is untouched by the whole
sequence. -/
theorem insertSeq_get_node_off (H : List Nat → List Nat) :
    ∀ (ops : List (List Nat × List Nat)) (t : SparseMerkleTree) (l i : Nat),
      (∀ op ∈ ops, l ≤ t.depth →
        i ≠ leaf_index_from_key_hash t.depth (smtKeccak H op.1) / 2 ^ l) →
      ((insertSeq H t ops).storage).get_node l i = t.storage.get_node l i
  | [], _, _, _, _ => rfl
  | (k, v) :: ops, t, l, i, hoff => by
    rw [insertSeq]
    rw [insertSeq_get_node_off H ops (t.insert H k v) l i
      (fun op hop => hoff op (List.mem_cons_of_mem _ hop))]
    exact insert_get_node_off H t k v l i
      (hoff (k, v) (List.mem_cons_self _ _))

/-- The logical value of a node: materialized hash or the per-level empty. -/
def nodeVal (H : List Nat → List Nat) (s : LmdbStorage) (l i : Nat) : List Nat :=
  (s.get_node l i).getD (emptyHash H l)

/-- Hash-consistency of a store up to depth `d`: every node is the
domain-separated hash of its two (logical) children. -/
def Consistent (H : List Nat → List Nat) (s : LmdbStorage) (d : Nat) : Prop :=
  ∀ l, l < d → ∀ j,
    nodeVal H s (l + 1) j =
      hash_internal H (nodeVal H s l (2 * j)) (nodeVal H s l (2 * j + 1))

/-- The fresh store is consistent: all nodes default to the empty chain. -/
theorem consistent_new (H : List Nat → List Nat) (d : Nat) :
    Consistent H LmdbStorage.new d := by
  intro l _ j
  have hget : ∀ a b, LmdbStorage.new.get_node a b = none := fun _ _ => rfl
  simp only [nodeVal, hget, Option.getD_none]
  rfl

/-- A consistency step along an arbitrary path index. -/
theorem consistent_step (H : List Nat → List Nat) (s : LmdbStorage) (d : Nat)
    (hcons : Consistent H s d) (idx0 l : Nat) (hl : l < d) :
    nodeVal H s (l + 1) (idx0 / 2 ^ (l + 1)) =
      combineSide H (idx0 / 2 ^ l) (nodeVal H s l (idx0 / 2 ^ l))
        (smtSib H s idx0 l) := by
  have hsib : smtSib H s idx0 l = nodeVal H s l ((idx0 / 2 ^ l) ^^^ 1) := rfl
  rw [← div_pow_succ]
  rcases Nat.mod_two_eq_zero_or_one (idx0 / 2 ^ l) with hp | hp
  · have h2j : 2 * (idx0 / 2 ^ l / 2) = idx0 / 2 ^ l := by omega
    have h2j1 : 2 * (idx0 / 2 ^ l / 2) + 1 = (idx0 / 2 ^ l) ^^^ 1 := by
      rw [xor_one_of_even _ hp]; omega
    rw [combineSide, if_pos hp, hcons l hl (idx0 / 2 ^ l / 2), h2j1, h2j, hsib]
  · have h2j : 2 * (idx0 / 2 ^ l / 2) = (idx0 / 2 ^ l) ^^^ 1 := by
      rw [xor_one_of_odd _ hp]; omega
    have h2j1 : 2 * (idx0 / 2 ^ l / 2) + 1 = idx0 / 2 ^ l := by omega
    rw [combineSide, if_neg (by omega), hcons l hl (idx0 / 2 ^ l / 2), h2j1, h2j, hsib]

/-- One `insert` preserves hash-consistency. -/
theorem consistent_insert (H : List Nat → List Nat) (t : SparseMerkleTree)
    (key value : List Nat) (hcons : Consistent H t.storage t.depth) :
    Consistent H (t.insert H key value).storage t.depth := by
  intro l hl j
  by_cases hj : j = insIdx H t key / 2 ^ (l + 1)
  · subst hj
    have hpar := insert_get_node_path H t key value (l + 1) (by omega)
    have hchild := insert_get_node_path H t key value l (by omega)
    rcases Nat.mod_two_eq_zero_or_one (insIdx H t key / 2 ^ l) with hp | hp
    · have h2j : 2 * (insIdx H t key / 2 ^ (l + 1)) = insIdx H t key / 2 ^ l := by
        rw [← div_pow_succ]; omega
      have h2j1 : 2 * (insIdx H t key / 2 ^ (l + 1)) + 1 =
          (insIdx H t key / 2 ^ l) ^^^ 1 := by
        rw [xor_one_of_even _ hp, ← div_pow_succ]; omega
      have hsib1 : (t.insert H key value).storage.get_node l
          ((insIdx H t key / 2 ^ l) ^^^ 1) =
          t.storage.get_node l ((insIdx H t key / 2 ^ l) ^^^ 1) :=
        insert_get_node_off H t key value l _ (fun _ => xor_one_ne _)
      rw [nodeVal, hpar, Option.getD_some, h2j1, h2j, nodeVal, nodeVal, hchild,
        Option.getD_some, hsib1]
      show smtW H t.storage (insIdx H t key) (insLeaf H key value) (l + 1) = _
      rw [smtW, combineSide, if_pos hp]
      rfl
    · have h2j : 2 * (insIdx H t key / 2 ^ (l + 1)) =
          (insIdx H t key / 2 ^ l) ^^^ 1 := by
        rw [xor_one_of_odd _ hp, ← div_pow_succ]; omega
      have h2j1 : 2 * (insIdx H t key / 2 ^ (l + 1)) + 1 = insIdx H t key / 2 ^ l := by
        rw [← div_pow_succ]; omega
      have hsib1 : (t.insert H key value).storage.get_node l
          ((insIdx H t key / 2 ^ l) ^^^ 1) =
          t.storage.get_node l ((insIdx H t key / 2 ^ l) ^^^ 1) :=
        insert_get_node_off H t key value l _ (fun _ => xor_one_ne _)
      rw [nodeVal, hpar, Option.getD_some, h2j1, h2j, nodeVal, nodeVal, hchild,
        Option.getD_some, hsib1]
      show smtW H t.storage (insIdx H t key) (insLeaf H key value) (l + 1) = _
      rw [smtW, combineSide, if_neg (by omega)]
      rfl
  · have hpar : (t.insert H key value).storage.get_node (l + 1) j =
        t.storage.get_node (l + 1) j :=
      insert_get_node_off H t key value (l + 1) j (fun _ => hj)
    have hc1 : 2 * j ≠ insIdx H t key / 2 ^ l := by
      intro hc
      apply hj
      rw [← div_pow_succ, ← hc]
      omega
    have hc2 : 2 * j + 1 ≠ insIdx H t key / 2 ^ l := by
      intro hc
      apply hj
      rw [← div_pow_succ, ← hc]
      omega
    have hch1 : (t.insert H key value).storage.get_node l (2 * j) =
        t.storage.get_node l (2 * j) :=
      insert_get_node_off H t key value l _ (fun _ => hc1)
    have hch2 : (t.insert H key value).storage.get_node l (2 * j + 1) =
        t.storage.get_node l (2 * j + 1) :=
      insert_get_node_off H t key value l _ (fun _ => hc2)
    rw [nodeVal, nodeVal, nodeVal, hpar, hch1, hch2]
    exact hcons l hl j

/-- Everything `insert` writes is an `H`-output. -/
theorem smtW_isBytes (H : List Nat → List Nat) (hH : ∀ x, IsBytes (H x))
    (s : LmdbStorage) (idx0 : Nat) (leaf : List Nat) (hleaf : IsBytes leaf) :
    ∀ l, IsBytes (smtW H s idx0 leaf l)
  | 0 => hleaf
  | l + 1 => by
    rw [smtW, combineSide]
    by_cases hp : idx0 / 2 ^ l % 2 = 0 <;> simp only [hp, if_true, if_false] <;>
      exact hH _

/-- One `insert` preserves the byte-string store invariant. -/
theorem insert_storeIsBytes (H : List Nat → List Nat) (hH : ∀ x, IsBytes (H x))
    (t : SparseMerkleTree) (key value : List Nat) (hbytes : StoreIsBytes t.storage) :
    StoreIsBytes (t.insert H key value).storage := by
  intro l i v hv
  by_cases hpath : l ≤ t.depth ∧ i = insIdx H t key / 2 ^ l
  · obtain ⟨hl, rfl⟩ := hpath
    rw [insert_get_node_path H t key value l hl] at hv
    cases hv
    exact smtW_isBytes H hH t.storage _ _ (hH _) l
  · rw [insert_get_node_off H t key value l i
      (fun hl hi => hpath ⟨hl, hi⟩)] at hv
    exact hbytes l i v hv

/-- The invariants hold of every state reachable by insertions. -/
theorem insertSeq_invariants (H : List Nat → List Nat) (hH : ∀ x, IsBytes (H x)) :
    ∀ (ops : List (List Nat × List Nat)) (t : SparseMerkleTree),
      Consistent H t.storage t.depth → StoreIsBytes t.storage →
      Consistent H (insertSeq H t ops).storage t.depth ∧
        StoreIsBytes (insertSeq H t ops).storage
  | [], _, hcons, hbytes => ⟨hcons, hbytes⟩
  | (k, v) :: ops, t, hcons, hbytes => by
    rw [insertSeq]
    have hd : (t.insert H k v).depth = t.depth := rfl
    have h := insertSeq_invariants H hH ops (t.insert H k v)
      (hd ▸ consistent_insert H t k v hcons)
      (insert_storeIsBytes H hH t k v hbytes)
    rw [hd] at h
    exact h

/-- C5 (amended, for `SparseMerkleTree`): the empty chain satisfies the
specified recurrence (and the precomputed table holds it); in every state
reachable by insertions, a node off all inserted paths is unmaterialized and
its logical value is the per-level empty; the root of a fresh tree is
`empty[depth]`.  The `OptimizedSparseMerkleTree` instead defaults every level
to the single hash `Keccak256(0x00)` (see the counterexample). -/
theorem C5_empty_defaults_amended :
    (emptyHash keccak 0 = keccak [2] ∧
      (∀ l, emptyHash keccak (l + 1) =
        hash_internal keccak (emptyHash keccak l) (emptyHash keccak l)) ∧
      (∀ d l, l ≤ d → (compute_empty keccak d).getD l [] = emptyHash keccak l)) ∧
    (∀ (d : Nat) (ops : List (List Nat × List Nat)) (l i : Nat),
      (∀ op ∈ ops, l ≤ d →
        i ≠ leaf_index_from_key_hash d (smtKeccak keccak op.1) / 2 ^ l) →
      (insertSeq keccak (SparseMerkleTree.new LmdbStorage.new d) ops).storage.get_node l i
          = none ∧
      nodeVal keccak
          (insertSeq keccak (SparseMerkleTree.new LmdbStorage.new d) ops).storage l i =
        emptyHash keccak l) ∧
    (∀ d, (SparseMerkleTree.new LmdbStorage.new d).root keccak = emptyHash keccak d) ∧
    (OptimizedSparseMerkleTree.get_root keccak ⟨LmdbStorage.new⟩ =
      compute_empty_hash keccak) := by
  refine ⟨⟨rfl, fun l => rfl, fun d l hl => compute_empty_getD keccak d l hl⟩, ?_, fun d => rfl, rfl⟩
  intro d ops l i hoff
  have hnone : (insertSeq keccak (SparseMerkleTree.new LmdbStorage.new d) ops).storage.get_node l i = none := by
    rw [insertSeq_get_node_off keccak ops (SparseMerkleTree.new LmdbStorage.new d) l i hoff]
    rfl
  exact ⟨hnone, by rw [nodeVal, hnone, Option.getD_none]⟩

/-- C5 (counterexample): the optimized sparse tree defaults every level to
the single hash `Keccak256(0x00)`: its empty root is that value, and the
level-1 sibling its `get_proof` emits for an untouched tree is that value
too — not the chain value `empty[1] = Keccak256(0x01 ‖ empty[0] ‖ empty[0])`,
from which it provably differs. -/
theorem C5_optimized_empty_root_counterexample :
    OptimizedSparseMerkleTree.get_root keccak ⟨LmdbStorage.new⟩ =
      compute_empty_hash keccak ∧
    (match OptimizedSparseMerkleTree.get_proof keccak ⟨LmdbStorage.new⟩ 0 with
      | .ok p => p.siblings.getD 1 []
      | .error _ => []) = hexEncode (compute_empty_hash keccak) ∧
    compute_empty_hash keccak ≠ emptyHash keccak 1 := by
  refine ⟨rfl, by decide, by decide⟩

/-- C5 (witness): concretely at depth 2, after no insertions, node `(1, 0)`
is unmaterialized and reads as `empty[1]`. -/
theorem C5_empty_defaults_witness :
    (insertSeq keccak (SparseMerkleTree.new LmdbStorage.new 2) []).storage.get_node 1 0
        = none ∧
    nodeVal keccak (insertSeq keccak (SparseMerkleTree.new LmdbStorage.new 2) []).storage
        1 0 = emptyHash keccak 1 :=
  C5_empty_defaults_amended.2.1 2 [] 1 0 (by simp)

/-- Non-membership round-trip, over any hash function with byte output: in a
state reachable by insertions whose leaf positions all differ from the
queried key's, the non-membership proof verifies against the current root. -/
theorem smt_non_membership_core (H : List Nat → List Nat) (hH : ∀ x, IsBytes (H x))
    (d : Nat) (ops : List (List Nat × List Nat)) (k : List Nat)
    (hfree : ∀ op ∈ ops,
      leaf_index_from_key_hash d (smtKeccak H op.1) ≠
        leaf_index_from_key_hash d (smtKeccak H k)) :
    (insertSeq H (SparseMerkleTree.new LmdbStorage.new d) ops).verify_non_membership H k
      ((insertSeq H (SparseMerkleTree.new LmdbStorage.new d) ops).get_proof H k)
      ((insertSeq H (SparseMerkleTree.new LmdbStorage.new d) ops).root H) = true := by
  set T := insertSeq H (SparseMerkleTree.new LmdbStorage.new d) ops with hT
  have hD : T.depth = d := insertSeq_depth H ops _
  set idxk := leaf_index_from_key_hash d (smtKeccak H k) with hidxk
  have hfreshbytes : StoreIsBytes (SparseMerkleTree.new LmdbStorage.new d).storage := by
    intro l i v hv
    exact absurd hv (by simp [SparseMerkleTree.new, LmdbStorage.new, LmdbStorage.get_node])
  have hinv := insertSeq_invariants H hH ops (SparseMerkleTree.new LmdbStorage.new d)
    (consistent_new H _) hfreshbytes
  have hcons : Consistent H T.storage d := hinv.1
  have hbytes : StoreIsBytes T.storage := hinv.2
  have hslot : T.storage.get_node 0 idxk = none := by
    rw [hT, insertSeq_get_node_off H ops (SparseMerkleTree.new LmdbStorage.new d) 0 idxk
      (fun op hop _ => by
        simpa using (hfree op hop).symm)]
    rfl
  have hsibs : (T.get_proof H k).siblings =
      (List.range d).map (fun j => hexEncode (smtSib H T.storage idxk j)) := by
    show (proofLoop H T.storage 0 T.depth
      (leaf_index_from_key_hash T.depth (smtKeccak H k))) = _
    rw [hD, ← hidxk]
    have hpl := proofLoop_eq H T.storage idxk d 0
    simp only [pow_zero, Nat.div_one, Nat.zero_add] at hpl
    exact hpl
  have hfold : smtFold H (emptyHash H 0) idxk ((T.get_proof H k).siblings) =
      some (nodeVal H T.storage d (idxk / 2 ^ d)) := by
    rw [hsibs]
    have hsteps := smtFold_steps H (smtSib H T.storage idxk)
      (fun l => nodeVal H T.storage l (idxk / 2 ^ l)) idxk d 0
      (fun j _ => by simpa using smtSib_isBytes H hH T.storage hbytes idxk j)
      (fun j hj => by
        simpa using consistent_step H T.storage d hcons idxk j (by omega))
    simp only [pow_zero, Nat.div_one, Nat.zero_add] at hsteps
    have hw0 : nodeVal H T.storage 0 idxk = emptyHash H 0 := by
      rw [nodeVal, hslot, Option.getD_none]
    rw [← hw0]
    exact hsteps
  have hroot : T.root H = nodeVal H T.storage d (idxk / 2 ^ d) := by
    have hdiv : idxk / 2 ^ d = 0 := Nat.div_eq_of_lt (leaf_index_lt _ _)
    show (T.storage.get_node T.depth 0).getD (emptyHash H T.depth) = _
    rw [hD, hdiv]
    rfl
  have hlen : (T.get_proof H k).siblings.length = T.depth := by
    rw [hsibs, hD]
    simp
  unfold SparseMerkleTree.verify_non_membership
  rw [if_neg (by rw [hlen]; exact fun h => h rfl)]
  show (match smtFold H (emptyHash H 0)
      (leaf_index_from_key_hash T.depth (smtKeccak H k))
      (T.get_proof H k).siblings with
    | some c => c == T.root H
    | none => false) = true
  rw [hD, ← hidxk, hfold, hroot]
  simp

/-- C8 (amended): for a sparse tree built by any sequence of insertions and
any key `k` whose leaf position (top `depth` bits of `Keccak256(k)`) differs
from every inserted key's leaf position — in particular any never-inserted
key, barring position collisions — `verify_non_membership` of the generated
proof against the current root succeeds. -/
theorem C8_non_membership_amended (d : Nat) (ops : List (List Nat × List Nat))
    (k : List Nat)
    (hfree : ∀ op ∈ ops,
      leaf_index_from_key_hash d (smtKeccak keccak op.1) ≠
        leaf_index_from_key_hash d (smtKeccak keccak k)) :
    (insertSeq keccak (SparseMerkleTree.new LmdbStorage.new d) ops).verify_non_membership
      keccak k
      ((insertSeq keccak (SparseMerkleTree.new LmdbStorage.new d) ops).get_proof keccak k)
      ((insertSeq keccak (SparseMerkleTree.new LmdbStorage.new d) ops).root keccak) =
      true :=
  smt_non_membership_core keccak keccak_isBytes d ops k hfree

/-- C8 (counterexample): at depth 1 the keys `"a"` and `"c"` share their
1-bit leaf position.  After inserting only `"c"`, the key `"a"` was never
inserted, yet its non-membership proof is rejected against the current root. -/
theorem C8_non_membership_counterexample :
    ([97] : List Nat) ≠ [99] ∧
    leaf_index_from_key_hash 1 (smtKeccak keccak [97]) =
      leaf_index_from_key_hash 1 (smtKeccak keccak [99]) ∧
    (insertSeq keccak (SparseMerkleTree.new LmdbStorage.new 1)
      [([99], [1])]).verify_non_membership keccak [97]
      ((insertSeq keccak (SparseMerkleTree.new LmdbStorage.new 1)
        [([99], [1])]).get_proof keccak [97])
      ((insertSeq keccak (SparseMerkleTree.new LmdbStorage.new 1)
        [([99], [1])]).root keccak) = false := by
  refine ⟨by decide, by decide, by decide⟩

/-- C8 (witness): at depth 1, after inserting `"c"`, non-membership of `"b"`
(whose position bit differs) verifies. -/
theorem C8_non_membership_witness :
    (insertSeq keccak (SparseMerkleTree.new LmdbStorage.new 1)
      [([99], [1])]).verify_non_membership keccak [98]
      ((insertSeq keccak (SparseMerkleTree.new LmdbStorage.new 1)
        [([99], [1])]).get_proof keccak [98])
      ((insertSeq keccak (SparseMerkleTree.new LmdbStorage.new 1)
        [([99], [1])]).root keccak) = true :=
  C8_non_membership_amended 1 [([99], [1])] [98] (by decide)

/-! ## Incremental-tree round-trip (claim C1) -/

/-- Past level 0, the proof loop ignores the `num_leaves` argument. -/
theorem imtProofLoop_false_irrel :
    ∀ (ls : List (List (List Nat))) (n m i : Nat),
      imtProofLoop ls false n i = imtProofLoop ls false m i
  | [], _, _, _ => rfl
  | lvl :: rest, n, m, i => by
    simp only [imtProofLoop, Bool.false_eq_true, if_false]
    rw [imtProofLoop_false_irrel rest n m (i / 2)]

/-- On a level list headed by its own level, starting `isFirst` with the
head's length is the same as not being first. -/
theorem imtProofLoop_first_to_false (lvl : List (List Nat))
    (rest : List (List (List Nat))) (n i : Nat) :
    imtProofLoop (lvl :: rest) true lvl.length i =
      imtProofLoop (lvl :: rest) false n i := by
  simp only [imtProofLoop, Bool.false_eq_true, if_false, if_true]
  rw [imtProofLoop_false_irrel rest lvl.length n (i / 2)]

/-- A complete pair promotes to its hash. -/
theorem nextLevel_get?_pair (H : List Nat → List Nat) :
    ∀ (l : List (List Nat)) (j : Nat) (a b : List Nat),
      l.get? (2 * j) = some a → l.get? (2 * j + 1) = some b →
      (nextLevel H l).get? j = some (hash_pair H a b)
  | [], j, _, _, ha, _ => by simp at ha
  | [x], j, _, _, ha, hb => by
    cases j with
    | zero => simp at hb
    | succ m =>
      rw [show 2 * (m + 1) = 2 * m + 1 + 1 by ring] at ha
      simp at ha
  | x :: y :: rest, j, a, b, ha, hb => by
    cases j with
    | zero =>
      simp only [Nat.mul_zero, List.get?_cons_zero, Nat.zero_add,
        List.get?_cons_succ] at ha hb
      cases ha
      cases hb
      rfl
    | succ m =>
      rw [show 2 * (m + 1) = 2 * m + 1 + 1 by ring, List.get?_cons_succ,
        List.get?_cons_succ] at ha
      rw [show 2 * (m + 1) + 1 = 2 * m + 1 + 1 + 1 by ring, List.get?_cons_succ,
        List.get?_cons_succ] at hb
      show (nextLevel H rest).get? m = some (hash_pair H a b)
      exact nextLevel_get?_pair H rest m a b ha hb

/-- The unpaired last element promotes to the hash of itself with itself. -/
theorem nextLevel_get?_self (H : List Nat → List Nat) :
    ∀ (l : List (List Nat)) (j : Nat) (a : List Nat),
      l.get? (2 * j) = some a → l.length = 2 * j + 1 →
      (nextLevel H l).get? j = some (hash_pair H a a)
  | [], _, _, ha, _ => by simp at ha
  | [x], j, a, ha, hlen => by
    cases j with
    | zero =>
      simp only [Nat.mul_zero, List.get?_cons_zero] at ha
      cases ha
      rfl
    | succ m => simp [show 2 * (m + 1) + 1 = 2 * m + 3 by ring] at hlen
  | x :: y :: rest, j, a, ha, hlen => by
    cases j with
    | zero => simp at hlen
    | succ m =>
      rw [show 2 * (m + 1) = 2 * m + 1 + 1 by ring, List.get?_cons_succ,
        List.get?_cons_succ] at ha
      have hlen' : rest.length = 2 * m + 1 := by
        simp only [List.length_cons] at hlen
        omega
      show (nextLevel H rest).get? m = some (hash_pair H a a)
      exact nextLevel_get?_self H rest m a ha hlen'

/-- Promoted levels hold only `H`-outputs. -/
theorem nextLevel_isBytes (H : List Nat → List Nat) (hH : ∀ x, IsBytes (H x)) :
    ∀ (l : List (List Nat)) (x : List Nat), x ∈ nextLevel H l → IsBytes x
  | [], _, hx => absurd hx (by simp [nextLevel])
  | [a], x, hx => by
    simp only [nextLevel, List.mem_singleton] at hx
    exact hx ▸ hH _
  | a :: b :: rest, x, hx => by
    simp only [nextLevel, List.mem_cons] at hx
    rcases hx with rfl | hx
    · exact hH _
    · exact nextLevel_isBytes H hH rest x hx

/-- A level of at most one entry builds trivially. -/
theorem buildLevelsP_short (H : List Nat → List Nat) (fuel : Nat)
    (lvl : List (List Nat)) (hlen : lvl.length ≤ 1) :
    buildLevelsP H fuel lvl = (true, [lvl]) := by
  cases fuel <;> simp [buildLevelsP, hlen]

set_option linter.unusedVariables false in
/-- The heart of the incremental-tree round-trip: on a freshly built pyramid,
the proof loop succeeds and the direction-driven verification fold of its
output reproduces the pyramid's root entry. -/
theorem imt_roundtrip_core (H : List Nat → List Nat) (hH : ∀ x, IsBytes (H x)) :
    ∀ (fuel : Nat) (lvl : List (List Nat)) (i : Nat) (leafI : List Nat),
      lvl.length ≤ 2 ^ fuel → lvl.get? i = some leafI → (∀ x ∈ lvl, IsBytes x) →
      ∃ sibs dirs rt,
        imtProofLoop (buildLevelsP H fuel lvl).2 true lvl.length i = some (sibs, dirs) ∧
        sibs.length = dirs.length ∧
        dirFold H leafI (sibs.zip dirs) = some rt ∧
        lastRootOf (buildLevelsP H fuel lvl).2 = some rt := by
  intro fuel
  induction fuel with
  | zero =>
    intro lvl i leafI hfuel hget hbytes
    have hlen : lvl.length ≤ 1 := by simpa using hfuel
    rcases List.get?_eq_some.mp hget with ⟨hlt, -⟩
    have hl1 : lvl.length = 1 := by omega
    have hi0 : i = 0 := by omega
    obtain ⟨x, rfl⟩ : ∃ x, lvl = [x] := by
      cases lvl with
      | nil => simp at hl1
      | cons a l =>
        cases l with
        | nil => exact ⟨a, rfl⟩
        | cons b l' => simp at hl1
    have hx : x = leafI := by
      rw [hi0] at hget
      simpa using hget
    subst hx
    refine ⟨[], [], x, ?_, rfl, rfl, rfl⟩
    rw [buildLevelsP_short H 0 [x] (by simp), hi0]
    rfl
  | succ fuel ih =>
    intro lvl i leafI hfuel hget hbytes
    by_cases hshort : lvl.length ≤ 1
    · rcases List.get?_eq_some.mp hget with ⟨hlt, -⟩
      have hl1 : lvl.length = 1 := by omega
      have hi0 : i = 0 := by omega
      obtain ⟨x, rfl⟩ : ∃ x, lvl = [x] := by
        cases lvl with
        | nil => simp at hl1
        | cons a l =>
          cases l with
          | nil => exact ⟨a, rfl⟩
          | cons b l' => simp at hl1
      have hx : x = leafI := by
        rw [hi0] at hget
        simpa using hget
      subst hx
      refine ⟨[], [], x, ?_, rfl, rfl, rfl⟩
      rw [buildLevelsP_short H (fuel + 1) [x] (by simp), hi0]
      rfl
    · rcases List.get?_eq_some.mp hget with ⟨hlt, -⟩
      have hstep := buildLevelsP_step H fuel lvl hshort
      -- the promoted level and its recursive build
      have hnextlen : (nextLevel H lvl).length ≤ 2 ^ fuel := by
        rw [nextLevel_length]
        have h2 : (2 : Nat) ^ (fuel + 1) = 2 * 2 ^ fuel := by ring
        omega
      have hnextbytes : ∀ x ∈ nextLevel H lvl, IsBytes x :=
        fun x hx => nextLevel_isBytes H hH lvl x hx
      -- the parent entry the fold must reach, by parity of i
      rcases Nat.mod_two_eq_zero_or_one i with hpar | hpar
      · by_cases hsib : i + 1 < lvl.length
        · -- even, in-range sibling
          obtain ⟨b, hb⟩ : ∃ b, lvl.get? (i + 1) = some b :=
            ⟨lvl.get ⟨i + 1, hsib⟩, List.get?_eq_get hsib⟩
          have hparent : (nextLevel H lvl).get? (i / 2) = some (hash_pair H leafI b) := by
            apply nextLevel_get?_pair H lvl (i / 2)
            · rw [show 2 * (i / 2) = i by omega]; exact hget
            · rw [show 2 * (i / 2) + 1 = i + 1 by omega]; exact hb
          obtain ⟨sibs, dirs, rt, hloop, hlens, hfold, hroot⟩ :=
            ih (nextLevel H lvl) (i / 2) (hash_pair H leafI b) hnextlen hparent hnextbytes
          obtain ⟨tail, htail⟩ := buildLevelsP_head H fuel (nextLevel H lvl)
          refine ⟨hexEncode b :: sibs, (i % 2 == 0) :: dirs, rt, ?_, by simpa using hlens,
            ?_, ?_⟩
          · rw [hstep]
            simp only [imtProofLoop, if_true, hshort, if_false]
            have hbeq : (i % 2 == 0) = true := by simp [hpar]
            rw [hbeq]
            simp only [if_true, hsib, hb]
            have hconv : imtProofLoop (buildLevelsP H fuel (nextLevel H lvl)).2 false
                lvl.length (i / 2) = some (sibs, dirs) := by
              rw [htail] at hloop ⊢
              rw [← imtProofLoop_first_to_false (nextLevel H lvl) tail lvl.length (i / 2)]
              exact hloop
            rw [hconv]
            rfl
          · simp only [List.zip_cons_cons, dirFold,
              hexDecode_hexEncode b (hbytes b (List.get?_mem hb))]
            have hbeq : (i % 2 == 0) = true := by simp [hpar]
            rw [hbeq]
            simpa using hfold
          · rw [hstep]
            show lastRootOf (lvl :: (buildLevelsP H fuel (nextLevel H lvl)).2) = some rt
            rw [lastRootOf_cons _ _ (buildLevelsP_ne_nil H fuel _)]
            exact hroot
        · -- even, unpaired last element: self sibling
          have hlast : lvl.length = i + 1 := by omega
          have hparent : (nextLevel H lvl).get? (i / 2) = some (hash_pair H leafI leafI) := by
            apply nextLevel_get?_self H lvl (i / 2)
            · rw [show 2 * (i / 2) = i by omega]; exact hget
            · omega
          obtain ⟨sibs, dirs, rt, hloop, hlens, hfold, hroot⟩ :=
            ih (nextLevel H lvl) (i / 2) (hash_pair H leafI leafI) hnextlen hparent
              hnextbytes
          obtain ⟨tail, htail⟩ := buildLevelsP_head H fuel (nextLevel H lvl)
          refine ⟨hexEncode leafI :: sibs, false :: dirs, rt, ?_, by simpa using hlens,
            ?_, ?_⟩
          · rw [hstep]
            simp only [imtProofLoop, if_true, hshort, if_false]
            have hbeq : (i % 2 == 0) = true := by simp [hpar]
            rw [hbeq]
            simp only [if_true, hsib, if_false, hget]
            have hconv : imtProofLoop (buildLevelsP H fuel (nextLevel H lvl)).2 false
                lvl.length (i / 2) = some (sibs, dirs) := by
              rw [htail] at hloop ⊢
              rw [← imtProofLoop_first_to_false (nextLevel H lvl) tail lvl.length (i / 2)]
              exact hloop
            rw [hconv]
            rfl
          · simp only [List.zip_cons_cons, dirFold,
              hexDecode_hexEncode leafI (hbytes leafI (List.get?_mem hget))]
            simpa using hfold
          · rw [hstep]
            show lastRootOf (lvl :: (buildLevelsP H fuel (nextLevel H lvl)).2) = some rt
            rw [lastRootOf_cons _ _ (buildLevelsP_ne_nil H fuel _)]
            exact hroot
      · -- odd: the sibling is to the left
        have hsib : i - 1 < lvl.length := by omega
        obtain ⟨b, hb⟩ : ∃ b, lvl.get? (i - 1) = some b :=
          ⟨lvl.get ⟨i - 1, hsib⟩, List.get?_eq_get hsib⟩
        have hparent : (nextLevel H lvl).get? (i / 2) = some (hash_pair H b leafI) := by
          apply nextLevel_get?_pair H lvl (i / 2)
          · rw [show 2 * (i / 2) = i - 1 by omega]; exact hb
          · rw [show 2 * (i / 2) + 1 = i by omega]; exact hget
        obtain ⟨sibs, dirs, rt, hloop, hlens, hfold, hroot⟩ :=
          ih (nextLevel H lvl) (i / 2) (hash_pair H b leafI) hnextlen hparent hnextbytes
        obtain ⟨tail, htail⟩ := buildLevelsP_head H fuel (nextLevel H lvl)
        refine ⟨hexEncode b :: sibs, (i % 2 == 0) :: dirs, rt, ?_, by simpa using hlens,
          ?_, ?_⟩
        · rw [hstep]
          simp only [imtProofLoop, if_true, hshort, if_false]
          have hbeq : (i % 2 == 0) = false := by simp [hpar]
          rw [hbeq]
          simp only [Bool.false_eq_true, if_false, hsib, if_true, hb]
          have hconv : imtProofLoop (buildLevelsP H fuel (nextLevel H lvl)).2 false
              lvl.length (i / 2) = some (sibs, dirs) := by
            rw [htail] at hloop ⊢
            rw [← imtProofLoop_first_to_false (nextLevel H lvl) tail lvl.length (i / 2)]
            exact hloop
          rw [hconv]
          rfl
        · simp only [List.zip_cons_cons, dirFold,
            hexDecode_hexEncode b (hbytes b (List.get?_mem hb))]
          have hbeq : (i % 2 == 0) = false := by simp [hpar]
          rw [hbeq]
          simpa using hfold
        · rw [hstep]
          show lastRootOf (lvl :: (buildLevelsP H fuel (nextLevel H lvl)).2) = some rt
          rw [lastRootOf_cons _ _ (buildLevelsP_ne_nil H fuel _)]
          exact hroot

/-- In-memory round-trip: on the canonical post-mutation state (cache just
invalidated) holding byte leaves within capacity, `get_proof` succeeds,
`root` succeeds, and `_verify_proof` accepts. -/
theorem imt_roundtrip_inMemory (H : List Nat → List Nat) (hH : ∀ x, IsBytes (H x))
    (L : List (List Nat)) (i : Nat) (leaf : List Nat)
    (hbytes : ∀ x ∈ L, IsBytes x) (hcap : L.length ≤ MAX_LEAVES_MEM)
    (hget : L.get? i = some leaf) :
    ∃ p rt,
      ((⟨L, [], none, false⟩ : IncrementalMerkleTree).get_proof H i).1 = some p ∧
      ((⟨L, [], none, false⟩ : IncrementalMerkleTree).root H).1 = some rt ∧
      IncrementalMerkleTree.verify_proof H leaf p rt = true := by
  have hM : MAX_LEAVES_MEM = 2048 := rfl
  have hp64 : (2 : Nat) ^ 64 = 18446744073709551616 := by norm_num
  have hfuel : L.length ≤ 2 ^ 64 := by omega
  obtain ⟨sibs, dirs, rt, hloop, hlens, hfold, hroot⟩ :=
    imt_roundtrip_core H hH 64 L i leaf hfuel hget hbytes
  rcases List.get?_eq_some.mp hget with ⟨hlt, -⟩
  have hne : L ≠ [] := List.ne_nil_of_length_pos (by omega)
  have hisEmpty : L.isEmpty = false := by
    cases L with
    | nil => exact absurd rfl hne
    | cons a l => rfl
  have hok := buildLevelsP_complete H 64 L hfuel
  have hct : (⟨L, [], none, false⟩ : IncrementalMerkleTree).compute_tree H =
      ⟨L, (buildLevelsP H 64 L).2, some rt, true⟩ := by
    unfold IncrementalMerkleTree.compute_tree
    simp only [hisEmpty, Bool.false_eq_true, if_false, hok, if_true]
    rw [show lastRootOf (buildLevelsP H 64 L).2 = some rt from hroot]
  refine ⟨⟨sibs, dirs⟩, rt, ?_, ?_, ?_⟩
  · unfold IncrementalMerkleTree.get_proof
    rw [if_neg (by simp; omega)]
    simp only [Bool.false_eq_true, if_false, hct, hloop]
    rfl
  · unfold IncrementalMerkleTree.root
    simp only [hisEmpty, Bool.false_eq_true, if_false, Bool.false_and, hct]
  · unfold IncrementalMerkleTree.verify_proof
    rw [if_neg (by simpa using hlens)]
    simp only [hfold]
    simp


/-- The node value at level `k` of a pyramid whose leaves are all `x`: every
node of such a pyramid at level `k` equals this `k`-fold self-pairing. -/
def towerOf (H : List Nat → List Nat) (x : List Nat) : Nat → List Nat
  | 0 => x
  | k + 1 =>
    let t := towerOf H x k
    hash_pair H t t

/-- Promoting a level of `n` equal entries yields `(n+1)/2` equal entries. -/
theorem nextLevel_replicate (H : List Nat → List Nat) (x : List Nat) :
    ∀ n, nextLevel H (List.replicate n x) =
      List.replicate ((n + 1) / 2) (hash_pair H x x)
  | 0 => by simp [nextLevel]
  | 1 => by simp [nextLevel, List.replicate]
  | n + 2 => by
    have ih := nextLevel_replicate H x n
    show nextLevel H (x :: x :: List.replicate n x) = _
    rw [show (n + 2 + 1) / 2 = (n + 1) / 2 + 1 by omega]
    simp [nextLevel, ih, List.replicate]

/-- A level of at most one entry ends the build at once, whatever the fuel. -/
theorem buildLevelsP_stop (H : List Nat → List Nat) (fuel : Nat)
    (lvl : List (List Nat)) (h : lvl.length ≤ 1) :
    buildLevelsP H fuel lvl = (true, [lvl]) := by
  cases fuel <;> simp [buildLevelsP, h]

/-- The eleven cache levels of a 513-leaf pyramid of all-equal leaves `x`:
sizes 513, 257, 129, 65, 33, 17, 9, 5, 3, 2, 1, level `k` filled with the
`k`-th tower value. -/
def c1Levels (H : List Nat → List Nat) (x : List Nat) : List (List (List Nat)) :=
  [List.replicate 513 (towerOf H x 0),
   List.replicate 257 (towerOf H x 1),
   List.replicate 129 (towerOf H x 2),
   List.replicate 65 (towerOf H x 3),
   List.replicate 33 (towerOf H x 4),
   List.replicate 17 (towerOf H x 5),
   List.replicate 9 (towerOf H x 6),
   List.replicate 5 (towerOf H x 7),
   List.replicate 3 (towerOf H x 8),
   List.replicate 2 (towerOf H x 9),
   List.replicate 1 (towerOf H x 10)]

/-- Building the pyramid over 513 equal leaves succeeds (10 promotions fit
the 32-level bound) and produces exactly the `c1Levels` tower levels. -/
theorem buildLevelsP_513 (H : List Nat → List Nat) (x : List Nat) :
    buildLevelsP H 32 (List.replicate 513 x) = (true, c1Levels H x) := by
  have t1 : hash_pair H (towerOf H x 0) (towerOf H x 0) = towerOf H x 1 := rfl
  have t2 : hash_pair H (towerOf H x 1) (towerOf H x 1) = towerOf H x 2 := rfl
  have t3 : hash_pair H (towerOf H x 2) (towerOf H x 2) = towerOf H x 3 := rfl
  have t4 : hash_pair H (towerOf H x 3) (towerOf H x 3) = towerOf H x 4 := rfl
  have t5 : hash_pair H (towerOf H x 4) (towerOf H x 4) = towerOf H x 5 := rfl
  have t6 : hash_pair H (towerOf H x 5) (towerOf H x 5) = towerOf H x 6 := rfl
  have t7 : hash_pair H (towerOf H x 6) (towerOf H x 6) = towerOf H x 7 := rfl
  have t8 : hash_pair H (towerOf H x 7) (towerOf H x 7) = towerOf H x 8 := rfl
  have t9 : hash_pair H (towerOf H x 8) (towerOf H x 8) = towerOf H x 9 := rfl
  have t10 : hash_pair H (towerOf H x 9) (towerOf H x 9) = towerOf H x 10 := rfl
  have h0 : List.replicate 513 x = List.replicate 513 (towerOf H x 0) := rfl
  rw [h0,
    show (32 : Nat) = 31 + 1 from rfl,
    buildLevelsP_step H 31 _ (by simp), nextLevel_replicate,
    show (513 + 1) / 2 = 257 from rfl, t1,
    show (31 : Nat) = 30 + 1 from rfl,
    buildLevelsP_step H 30 _ (by simp), nextLevel_replicate,
    show (257 + 1) / 2 = 129 from rfl, t2,
    show (30 : Nat) = 29 + 1 from rfl,
    buildLevelsP_step H 29 _ (by simp), nextLevel_replicate,
    show (129 + 1) / 2 = 65 from rfl, t3,
    show (29 : Nat) = 28 + 1 from rfl,
    buildLevelsP_step H 28 _ (by simp), nextLevel_replicate,
    show (65 + 1) / 2 = 33 from rfl, t4,
    show (28 : Nat) = 27 + 1 from rfl,
    buildLevelsP_step H 27 _ (by simp), nextLevel_replicate,
    show (33 + 1) / 2 = 17 from rfl, t5,
    show (27 : Nat) = 26 + 1 from rfl,
    buildLevelsP_step H 26 _ (by simp), nextLevel_replicate,
    show (17 + 1) / 2 = 9 from rfl, t6,
    show (26 : Nat) = 25 + 1 from rfl,
    buildLevelsP_step H 25 _ (by simp), nextLevel_replicate,
    show (9 + 1) / 2 = 5 from rfl, t7,
    show (25 : Nat) = 24 + 1 from rfl,
    buildLevelsP_step H 24 _ (by simp), nextLevel_replicate,
    show (5 + 1) / 2 = 3 from rfl, t8,
    show (24 : Nat) = 23 + 1 from rfl,
    buildLevelsP_step H 23 _ (by simp), nextLevel_replicate,
    show (3 + 1) / 2 = 2 from rfl, t9,
    show (23 : Nat) = 22 + 1 from rfl,
    buildLevelsP_step H 22 _ (by simp), nextLevel_replicate,
    show (2 + 1) / 2 = 1 from rfl, t10,
    buildLevelsP_stop H 22 _ (by simp)]
  rfl

/-- Eleven textual `level_<i>` keys sort byte-lexicographically as
0, 1, 10, 2, 3, 4, 5, 6, 7, 8, 9 (`"level_10"` extends the prefix
`"level_1"` and its next byte `'0'` precedes `'2'`), whatever the stored
level contents. -/
theorem get_all_cache_levels_eleven (lv : List (List Nat))
    (a0 a1 a2 a3 a4 a5 a6 a7 a8 a9 a10 : List (List Nat))
    (nd : List ((Nat × Nat) × List Nat)) (md : Option TreeMetadata)
    (cr : Option (List Nat)) :
    LmdbStorage.get_all_cache_levels
      ⟨lv, [a0, a1, a2, a3, a4, a5, a6, a7, a8, a9, a10], nd, md, cr⟩ =
      [a0, a1, a10, a2, a3, a4, a5, a6, a7, a8, a9] := rfl

/-- The storage contents after inserting 513 single-byte leaves `0x00` into a
fresh persistent tree: the leaves, the eleven tower cache levels, the stored
root (the level-10 tower) and the metadata. -/
def c1Store : LmdbStorage :=
  { leaves := List.replicate 513 [0],
    cache_levels := c1Levels keccak [0],
    nodes := [],
    metadata := some ⟨513, MAX_LEAVES_LMDB⟩,
    cached_root := some (towerOf keccak [0] 10) }

/-- Rebuilding over the 513 appended leaves succeeds and produces `c1Store`. -/
theorem c1_recompute :
    LmdbMerkleTree.recompute_and_store_tree keccak
      { storage := { LmdbStorage.new with leaves := List.replicate 513 [0] },
        max_leaves := MAX_LEAVES_LMDB } = .ok c1Store := by
  simp only [LmdbMerkleTree.recompute_and_store_tree, LmdbStorage.get_all_leaves]
  rw [show (List.replicate 513 ([0] : List Nat)).isEmpty = false from rfl]
  simp only [Bool.false_eq_true, if_false]
  rw [show MAX_LEVELS = 32 from rfl, buildLevelsP_513 keccak [0]]
  rfl

/-- `add_leaves` in terms of the appended storage and the recompute result:
capacity admitted, the call returns `Ok` exactly when the rebuild does, and
the tree keeps the appended storage on a rebuild failure. -/
theorem add_leaves_unfolded (H : List Nat → List Nat) (t : LmdbMerkleTree)
    (ls : List (List Nat))
    (hcap : ¬ (t.num_leaves + ls.length > t.max_leaves)) (s' : LmdbStorage)
    (happ : t.storage.append_leaves t.num_leaves ls = s')
    (r : Except String LmdbStorage)
    (hrec : LmdbMerkleTree.recompute_and_store_tree H { t with storage := s' } = r) :
    t.add_leaves H ls =
      match r with
      | .ok s2 => (.ok (), { t with storage := s2 })
      | .error _ => (.error "Failed to recompute tree", { t with storage := s' }) := by
  cases r with
  | ok s2 => simp only [LmdbMerkleTree.add_leaves, happ, hrec, hcap, if_false]
  | error e => simp only [LmdbMerkleTree.add_leaves, happ, hrec, hcap, if_false]

/-- `add_leaves` of the 513 leaves on a fresh tree returns `Ok` and lands on
the `c1Store` storage. -/
theorem c1_add_leaves_eq :
    (LmdbMerkleTree.new LmdbStorage.new).add_leaves keccak
        (List.replicate 513 [0]) =
      (.ok (), { storage := c1Store, max_leaves := MAX_LEAVES_LMDB }) := by
  have hcond : ¬ ((LmdbMerkleTree.new LmdbStorage.new).num_leaves +
      (List.replicate 513 ([0] : List Nat)).length >
      (LmdbMerkleTree.new LmdbStorage.new).max_leaves) := by decide
  have happ : (LmdbMerkleTree.new LmdbStorage.new).storage.append_leaves
      ((LmdbMerkleTree.new LmdbStorage.new).num_leaves)
      (List.replicate 513 [0]) =
      { LmdbStorage.new with leaves := List.replicate 513 [0] } := by
    rw [show (LmdbMerkleTree.new LmdbStorage.new).storage = LmdbStorage.new from rfl,
      show (LmdbMerkleTree.new LmdbStorage.new).num_leaves = 0 from rfl,
      append_leaves_eq (List.replicate 513 [0]) LmdbStorage.new 0 rfl]
    rfl
  rw [add_leaves_unfolded keccak (LmdbMerkleTree.new LmdbStorage.new)
    (List.replicate 513 [0]) hcond _ happ _ c1_recompute]
  rfl

/-- The persistent tree after inserting 513 single-byte leaves `0x00` through
`add_leaves` — enough leaves for an eleven-level cache, `level_0` … `level_10`. -/
def c1FailTree : LmdbMerkleTree :=
  ((LmdbMerkleTree.new LmdbStorage.new).add_leaves keccak
    (List.replicate 513 [0])).2

/-- The persistent round-trip at leaf 0 of a tree: obtain the proof and the
stored root, then run `verify_proof` on them. -/
def c1Check (t : LmdbMerkleTree) : Bool :=
  match t.get_proof 0, t.root with
  | some p, some rt => LmdbMerkleTree.verify_proof keccak [0] p rt 0
  | _, _ => false

/-- The round-trip outcome on the 513-leaf tree. -/
def c1RoundTrip : Bool := c1Check c1FailTree

/-- C1.  For the persistent variant the proof/verify round-trip FAILS once
the cache holds more than ten levels: 513 insertions are accepted (well
under the 2^32 ceiling), yet `get_proof(0)` returns only two siblings — the
`get_all_cache_levels` cursor yields the textual keys in byte order, which
places the one-entry `level_10` directly after `level_1`, so the climb stops
at it — and `verify_proof` of that proof against the stored root returns
`false` where the claim requires `true`.  (The in-memory variant does
satisfy the round-trip: `imt_roundtrip_inMemory` above.) -/
theorem C1_lmdb_roundtrip_fails_at_513 :
    (((LmdbMerkleTree.new LmdbStorage.new).add_leaves keccak
        (List.replicate 513 [0])).1 = .ok ()) ∧
    c1FailTree.num_leaves = 513 ∧
    ((c1FailTree.get_proof 0).map (fun p => p.siblings.length) = some 2) ∧
    (c1FailTree.root).isSome = true ∧
    c1RoundTrip = false := by
  have htree : c1FailTree = { storage := c1Store, max_leaves := MAX_LEAVES_LMDB } := by
    show ((LmdbMerkleTree.new LmdbStorage.new).add_leaves keccak
      (List.replicate 513 [0])).2 = _
    rw [c1_add_leaves_eq]
  refine ⟨?_, ?_, ?_, ?_, ?_⟩
  · rw [c1_add_leaves_eq]
  · rw [htree]; rfl
  · rw [htree]; rfl
  · rw [htree]; rfl
  · have hv : c1Check { storage := c1Store, max_leaves := MAX_LEAVES_LMDB } = false := by
      decide
    show c1Check c1FailTree = false
    exact (congrArg c1Check htree).trans hv
